import Mathlib

/-!
# Hippocampus core: shallow embedding and verification

This file embeds the core of the Hippocampus vector index (package
`types`: `types.go`, `compression.go`; package `storage`: `storage.go`,
`compressed.go`; package `client`) as executable Lean definitions and
proves/refutes the frozen specification claims about it.

Modelling conventions:
* `float32`/`float64` arithmetic is idealised as exact rational arithmetic
  (`ℚ`); square roots are taken in `ℝ` only inside theorem statements.
  Comparisons of the form `sqrt s ≤ b` performed by the Go code are embedded
  in their equivalent squared, decidable form (a bridging lemma connects the
  two forms).
* Go byte strings are `List ℕ` (each entry one byte); machine integers are
  embedded as `ℕ`/`ℤ` with explicit wrap-around (`% 2^w`) exactly where the
  Go code can overflow.
* Go maps used as multiset accumulators (`map[int32]int`) are embedded as
  count functions.  Go's map iteration order is randomised and `sort.Slice`
  is not a stable sort, so the rebuild, batch-insert and search paths are
  embedded as *relations* between the pre-state and the possible
  post-states/results (`Tree.rebuildOutcome`, `Tree.batchOutcome`,
  `Tree.searchOutcome`), quantifying over every equal-key/equal-distance
  order the program may produce.  The executable functions
  (`Tree.rebuildIndex`, `Tree.batchInsert`, `Tree.searchWithFilterSt`) fix
  one concrete resolution of that nondeterminism — they are proved to
  satisfy the relations and serve in witnesses and frame reasoning.
* `time.Time` values are opaque instants, modelled as `ℤ`; `time.Now()` is
  an explicit input.  Go `interface{}` metadata values are the JSON-shaped
  scalars the specification's data model allows.
-/

namespace Hippocampus

/-- JSON-shaped scalar metadata value (Go `interface{}` entries of a
`types.Metadata` map, as constrained by the data model in the spec). -/
inductive MVal where
  | str (s : String)
  | num (q : ℚ)
  | bool (b : Bool)
  | null
deriving DecidableEq, Repr

/-- `types.Metadata`: a map from string keys to metadata values.
Embedded as an association list (Go map contents, key order abstracted). -/
def Md : Type := List (String × MVal)

instance : DecidableEq Md := inferInstanceAs (DecidableEq (List (String × MVal)))

instance : Repr Md := inferInstanceAs (Repr (List (String × MVal)))

/-- `types.Node`: key vector, opaque byte-string value, optional metadata
(`none` = Go `nil` map), creation timestamp. -/
structure Node where
  key : List ℚ
  value : List ℕ
  metadata : Option Md
  timestamp : ℤ
deriving DecidableEq, Repr

instance : Inhabited Node := ⟨⟨[], [], none, 0⟩⟩

/-- `types.Filter`: metadata equality constraints plus optional timestamp
bounds. -/
structure Filter where
  metadata : List (String × MVal)
  tsFrom : Option ℤ
  tsTo : Option ℤ
deriving DecidableEq, Repr

/-- `Node.MatchesFilter` (types.go): `nil` filter matches everything;
otherwise the timestamp must lie in the given bounds and every filter
metadata entry must be present in the node's metadata with an equal value. -/
def Node.matchesFilter (n : Node) (f : Option Filter) : Bool :=
  match f with
  | none => true
  | some f =>
    (match f.tsFrom with | none => true | some lo => decide (lo ≤ n.timestamp)) &&
    (match f.tsTo with | none => true | some hi => decide (n.timestamp ≤ hi)) &&
    (f.metadata.all fun kv =>
      match (n.metadata.getD []).lookup kv.1 with
      | none => false
      | some v => decide (v = kv.2))

/-- `types.Tree`: the collection.  `index` has one permutation per
dimension (`[][]int32`), `indexDirty` tracks staleness. -/
structure Tree where
  dimensions : ℕ
  nodes : List Node
  index : List (List ℕ)
  indexDirty : Bool
deriving DecidableEq, Repr

/-- Key coordinate `t.Nodes[i].Key[d]` with Go-slice access embedded via
defaults (all uses in the code are guarded by the invariants). -/
def Tree.nodeKey (t : Tree) (i d : ℕ) : ℚ :=
  ((t.nodes.getD i default).key).getD d 0

/-- `types.NewTree`: non-positive dimension counts are silently replaced by
the 512 default; no error is possible. -/
def newTree (dimensions : ℤ) : Tree :=
  let d : ℕ := if dimensions ≤ 0 then 512 else dimensions.toNat
  { dimensions := d
    nodes := []
    index := List.replicate d []
    indexDirty := false }

/-- `Tree.RebuildIndex`, canonical resolution: for each dimension, sort the
identity permutation `0..N−1` by the key coordinate in that dimension.
The Go code uses `sort.Slice` with the key-only `<` comparator, which is
*not* stable, so the program only guarantees the contract
`Tree.rebuildOutcome` (some key-sorted permutation per dimension); this
function picks the stable sort as one concrete outcome
(`rebuildIndex_isOutcome`). -/
def Tree.rebuildIndex (t : Tree) : Tree :=
  { t with
    index := (List.range t.dimensions).map fun d =>
      List.insertionSort (fun i j => t.nodeKey i d ≤ t.nodeKey j d)
        (List.range t.nodes.length)
    indexDirty := false }

/-- `Tree.ensureIndex`: rebuild when dirty or when no index is present. -/
def Tree.ensureIndex (t : Tree) : Tree :=
  if t.indexDirty ∨ t.index.length = 0 ∨ (t.index.getD 0 []).length = 0 then
    t.rebuildIndex
  else t

/-- `Tree.InsertWithMetadata`: validate the key length, append the node,
then either splice the new position into every dimension's permutation
(when an index is present and clean) or mark the index dirty.
`now` is the `time.Now()` reading.  Returns `(error?, new state)`. -/
def Tree.insertWithMetadata (t : Tree) (key : List ℚ) (value : List ℕ)
    (metadata : Option Md) (now : ℤ) : Option String × Tree :=
  if key.length ≠ t.dimensions then
    (some ("dimension mismatch"), t)
  else
    let nodeIdx := t.nodes.length
    let node : Node := ⟨key, value, metadata, now⟩
    let t₁ := { t with nodes := t.nodes ++ [node] }
    if (t.index.getD 0 []).length > 0 ∧ t.indexDirty = false then
      (none, { t₁ with
        index := (List.range t₁.dimensions).map fun dim =>
          let idx := t₁.index.getD dim []
          let insertPos := idx.findIdx fun pos =>
            decide (key.getD dim 0 ≤ t.nodeKey pos dim)
          idx.take insertPos ++ [nodeIdx] ++ idx.drop insertPos })
    else
      (none, { t₁ with indexDirty := true })

/-- One batch-insert item (`Tree.BatchInsert`'s anonymous struct). -/
structure BatchItem where
  key : List ℚ
  value : List ℕ
  metadata : Option Md
deriving DecidableEq, Repr

/-- `Tree.BatchInsert`, canonical resolution: validate every item's
dimension before any mutation; on success append all nodes and rebuild
the index once (through the canonical `Tree.rebuildIndex`; the faithful
contract is `Tree.batchOutcome`). -/
def Tree.batchInsert (t : Tree) (items : List BatchItem) (now : ℤ) :
    Option String × Tree :=
  if items.all fun it => it.key.length = t.dimensions then
    Tree.rebuildIndex
      { t with nodes :=
          t.nodes ++ items.map (fun it => ⟨it.key, it.value, it.metadata, now⟩) }
      |> fun t' => (none, t')
  else
    (some ("dimension mismatch"), t)

/-- The collection with a batch of items appended (the state
`Tree.BatchInsert` rebuilds from on the success path). -/
def Tree.appendBatch (t : Tree) (items : List BatchItem) (now : ℤ) : Tree :=
  ⟨t.dimensions,
    t.nodes ++ items.map fun it => ⟨it.key, it.value, it.metadata, now⟩,
    t.index, t.indexDirty⟩

/-! ## Query engine -/

/-- The slice of `index[d]` visited by the candidate scan of dimension `d`:
between the lowest position with key ≥ `q[d] − ε` (`sort.Search`) and the
lowest position with key > `q[d] + ε`. -/
def Tree.dimScan (t : Tree) (q : List ℚ) (eps : ℚ) (d : ℕ) : List ℕ :=
  let idx := t.index.getD d []
  let lo := q.getD d 0 - eps
  let hi := q.getD d 0 + eps
  let s := idx.findIdx fun pos => decide (lo ≤ t.nodeKey pos d)
  let e := idx.findIdx fun pos => decide (hi < t.nodeKey pos d)
  (idx.drop s).take (e - s)

/-- A worker's local hit counter for the contiguous dimension block
`[s, e)` (`localCandidates` in `parallelDimensionSearch`). -/
def Tree.localHits (t : Tree) (q : List ℚ) (eps : ℚ) (s e : ℕ) (pos : ℕ) : ℕ :=
  ((List.range' s (e - s)).map fun d => (t.dimScan q eps d).count pos).sum

/-- The shared accumulator after all workers merged: local counts added
per position (`candidateSet`). -/
def Tree.mergedHits (t : Tree) (q : List ℚ) (eps : ℚ)
    (blocks : List (ℕ × ℕ)) (pos : ℕ) : ℕ :=
  (blocks.map fun b => t.localHits q eps b.1 b.2 pos).sum

/-- `blocks` is a partition of the dimension range `[0, D)` into contiguous
worker blocks. -/
def blocksCoverAux : ℕ → ℕ → List (ℕ × ℕ) → Bool
  | s, D, [] => s = D
  | s, D, b :: r => b.1 = s && s ≤ b.2 && blocksCoverAux b.2 D r

def blocksCover (D : ℕ) (blocks : List (ℕ × ℕ)) : Bool :=
  blocksCoverAux 0 D blocks

/-- Squared Euclidean distance `Σ (q[d] − key[d])²` of node `pos` from the
query (the Go code computes `sumSquares` then takes `sqrt`). -/
def Tree.sumSq (t : Tree) (q : List ℚ) (pos : ℕ) : ℚ :=
  ((List.range t.dimensions).map fun d => (q.getD d 0 - t.nodeKey pos d) ^ 2).sum

/-- The admission test `distance ≤ ε·sqrt(D)·(1−τ)` of the refinement
stage, embedded in its equivalent squared decidable form (see
`sqrt_le_bound_iff`). -/
def distanceOk (D : ℕ) (eps tau s : ℚ) : Bool :=
  decide (0 ≤ eps * (1 - tau)) && decide (s ≤ eps ^ 2 * D * (1 - tau) ^ 2)

/-- Candidate pipeline after the parallel scan: positions hit in every
dimension, surviving the filter and the distance refinement, paired with
their squared distance — the *multiset* of entries of `candidates` in
`SearchWithFilter`, written here as its canonical position-ascending list
representative.  Go enumerates the candidate map in unspecified order;
the faithful relation `Tree.searchOutcome` therefore only ever constrains
this list up to permutation. -/
def Tree.admittedScored (t : Tree) (q : List ℚ) (eps tau : ℚ)
    (filter : Option Filter) (blocks : List (ℕ × ℕ)) : List (ℕ × ℚ) :=
  ((List.range t.nodes.length).filter fun pos =>
      t.mergedHits q eps blocks pos = t.dimensions
        ∧ (t.nodes.getD pos default).matchesFilter filter
        ∧ distanceOk t.dimensions eps tau (t.sumSq q pos) = true).map
    fun pos => (pos, t.sumSq q pos)

/-- Selection, canonical resolution: sort the admitted candidates
ascending by distance and truncate to `topK`.  The Go code sorts with the
unstable `sort.Slice` on `distance <` only, so equal-distance order is
not a program property; this function fixes the stable `≤`-sort of the
position-ascending representative as one concrete outcome (the faithful
contract is the distance-sorted-permutation clause of
`Tree.searchOutcome`). -/
def Tree.selectTopK (t : Tree) (scored : List (ℕ × ℚ)) (topK : ℕ) : List Node :=
  ((List.insertionSort (fun a b => a.2 ≤ b.2) scored).take topK).map
    fun p => t.nodes.getD p.1 default

/-- `Tree.SearchWithFilter`, state-passing form, canonical resolution:
validates the query length, returns empty on an empty collection,
otherwise ensures the index and runs the candidate pipeline.  The
returned tree is the post-state (the only mutation in the search path is
`ensureIndex`).  This function is one concrete resolution of the faithful
relation `Tree.searchOutcome` (`searchWithFilterSt_isOutcome`). -/
def Tree.searchWithFilterSt (t : Tree) (q : List ℚ) (eps tau : ℚ) (topK : ℕ)
    (filter : Option Filter) (blocks : List (ℕ × ℕ)) :
    Except String (List Node) × Tree :=
  if q.length ≠ t.dimensions then
    (Except.error ("dimension mismatch"), t)
  else if t.nodes.length = 0 then
    (Except.ok [], t)
  else
    let t' := t.ensureIndex
    (Except.ok (t'.selectTopK (t'.admittedScored q eps tau filter blocks) topK), t')

/-- `Tree.SearchWithFilter`, result only. -/
def Tree.searchWithFilter (t : Tree) (q : List ℚ) (eps tau : ℚ) (topK : ℕ)
    (filter : Option Filter) (blocks : List (ℕ × ℕ)) :
    Except String (List Node) :=
  (t.searchWithFilterSt q eps tau topK filter blocks).1


/-! ## Vector codec (compression.go) -/

/-- Minimum of a vector, computed by the Go fold (`min := vec[0]; ...`). -/
def vecMin (v : List ℚ) : ℚ := v.foldl min (v.headD 0)

/-- Maximum of a vector, computed by the Go fold. -/
def vecMax (v : List ℚ) : ℚ := v.foldl max (v.headD 0)

/-- `types.QuantizedVector`. -/
structure QuantizedVector where
  values : List ℕ
  min : ℚ
  max : ℚ
  dims : ℕ
deriving DecidableEq, Repr

/-- `types.QuantizeVector`: map each entry through
`round((v − min) · 255/(max − min))` (scale 0 when `max = min`).
`math.Round` rounds half away from zero; on the non-negative normalised
values this coincides with `round`. -/
def quantizeVector (v : List ℚ) : QuantizedVector :=
  if v.length = 0 then ⟨[], 0, 0, 0⟩
  else
    let mn := vecMin v
    let mx := vecMax v
    let scale : ℚ := if mx = mn then 0 else 255 / (mx - mn)
    { values := v.map fun x => (round ((x - mn) * scale)).toNat
      min := mn
      max := mx
      dims := v.length }

/-- `QuantizedVector.Dequantize`: `min + q[i] · (max − min)/255`. -/
def QuantizedVector.dequantize (qv : QuantizedVector) : List ℚ :=
  if qv.dims = 0 then []
  else
    let scale := (qv.max - qv.min) / 255
    qv.values.map fun x : ℕ => qv.min + (x : ℚ) * scale

/-- Two's-complement wrap of an integer to `w` bits (Go overflow of a
signed integer of width `w`). -/
def wrapSigned (w : ℕ) (z : ℤ) : ℤ :=
  (z + 2 ^ (w - 1)) % 2 ^ w - 2 ^ (w - 1)

/-- Go conversion of a signed value to `uint64` (wraps modulo `2^64`). -/
def toUInt64 (z : ℤ) : ℕ := (z % 2 ^ 64).toNat

/-- Error kind of `QuantizedVector.ApproximateDistance`. -/
inductive CompErr where
  | dimensionMismatch (a b : ℕ)
deriving DecidableEq, Repr

/-- `QuantizedVector.ApproximateDistance` up to (but excluding) the final
`math.Sqrt`: the per-coordinate difference is computed in `int16`, and —
exactly as in the Go source — the square `diff * diff` is an `int16`
product that wraps at 16 bits before being converted to `uint64` and
accumulated modulo `2^64`.  Returns the radicand `sumSquares` together
with the average scale `(s1 + s2)/2`; the function's float result is
`sqrt(sumSquares) · avgScale`, which theorem statements form with
`Real.sqrt` (not executable in `ℝ`). -/
def QuantizedVector.approximateDistance (qv other : QuantizedVector) :
    Except CompErr (ℕ × ℚ) :=
  if qv.dims ≠ other.dims then
    Except.error (CompErr.dimensionMismatch qv.dims other.dims)
  else
    let sum : ℕ :=
      (((List.range qv.dims).map fun i =>
        let diff : ℤ := (qv.values.getD i 0 : ℤ) - (other.values.getD i 0 : ℤ)
        toUInt64 (wrapSigned 16 (diff * diff))).sum) % 2 ^ 64
    let scale1 : ℚ := (qv.max - qv.min) / 255
    let scale2 : ℚ := (other.max - other.min) / 255
    Except.ok (sum, (scale1 + scale2) / 2)

/-- Modelled from the spec (§4.1): the radicand claim C6 asserts
`ApproximateDistance` uses — the exact (non-overflowing) sum of squared
coordinate differences `Σ (q1[i] − q2[i])²`; the claimed return value is
`sqrt` of this times `(s1 + s2)/2`. -/
def claimedSumSquares (qv other : QuantizedVector) : ℤ :=
  ((List.range qv.dims).map fun i =>
    ((qv.values.getD i 0 : ℤ) - (other.values.getD i 0 : ℤ)) ^ 2).sum

/-! ## Storage (storage.go / compressed.go)

The byte stream is a `List ℕ`.  Multi-byte integers are little-endian
base-256; the `float32` payload encoding and the opaque `time.Time` /
JSON metadata encodings are parameters (`Codec`) since their bit-level
layout is irrelevant to the container format. -/

/-- Little-endian encoding of `n` in `w` bytes (wraps modulo `256^w`,
as the Go integer-to-bytes conversion does). -/
def encLE : ℕ → ℕ → List ℕ
  | 0, _ => []
  | w + 1, n => n % 256 :: encLE w (n / 256)

/-- Little-endian decoding of a byte list. -/
def decLE (bs : List ℕ) : ℕ := bs.foldr (fun b acc => b + 256 * acc) 0

/-- Signed interpretation of a `w`-bit little-endian value. -/
def toSigned (w n : ℕ) : ℤ :=
  let m := n % 2 ^ w
  if m < 2 ^ (w - 1) then (m : ℤ) else (m : ℤ) - 2 ^ w

/-- Consume exactly `k` bytes, failing at end of stream (`binary.Read`
errors on a short read). -/
def readBytes (k : ℕ) (s : List ℕ) : Option (List ℕ × List ℕ) :=
  if k ≤ s.length then some (s.take k, s.drop k) else none

/-- Read a little-endian `int32`. -/
def readI32 (s : List ℕ) : Option (ℤ × List ℕ) :=
  (readBytes 4 s).map fun p => (toSigned 32 (decLE p.1), p.2)

/-- Read a little-endian `int64`. -/
def readI64 (s : List ℕ) : Option (ℤ × List ℕ) :=
  (readBytes 8 s).map fun p => (toSigned 64 (decLE p.1), p.2)

/-- Payload codecs: the `float32` bit pattern (4 bytes), the opaque
`time.MarshalBinary` encoding, and the JSON metadata encoding. -/
structure Codec where
  fenc : ℚ → List ℕ
  fdec : List ℕ → ℚ
  tsenc : ℤ → List ℕ
  tsdec : List ℕ → Option ℤ
  mdenc : Md → List ℕ
  mddec : List ℕ → Option Md

/-- The codec laws every real implementation satisfies: `float32` patterns
are 4 bytes and decode back; timestamp and metadata encodings round-trip,
fit in an `int32` length field, and a marshalled JSON object is never
empty (it is at least `"\x7b\x7d"`). -/
structure Codec.Wf (c : Codec) : Prop where
  fenc_length : ∀ x : ℚ, (c.fenc x).length = 4
  fdec_fenc : ∀ x : ℚ, c.fdec (c.fenc x) = x
  tsdec_tsenc : ∀ t : ℤ, c.tsdec (c.tsenc t) = some t
  tsenc_length : ∀ t : ℤ, (c.tsenc t).length < 2 ^ 31
  mddec_mdenc : ∀ m : Md, c.mddec (c.mdenc m) = some m
  mdenc_length : ∀ m : Md, (c.mdenc m).length < 2 ^ 31
  mdenc_pos : ∀ m : Md, 0 < (c.mdenc m).length

/-- `storage.writeNode`: dimension count, raw key floats, length-prefixed
value, length-prefixed timestamp, length-prefixed metadata (`nil` map →
length 0, nothing written). -/
def writeNode (c : Codec) (n : Node) : List ℕ :=
  let mdBytes := match n.metadata with | none => [] | some m => c.mdenc m
  encLE 4 n.key.length ++ (n.key.map c.fenc).flatten ++
  encLE 8 n.value.length ++ n.value ++
  encLE 4 (c.tsenc n.timestamp).length ++ c.tsenc n.timestamp ++
  encLE 4 mdBytes.length ++ mdBytes

/-- `FileStorage.Save`: dimensions header, node count, then the node
records in insertion order. -/
def fileSave (c : Codec) (t : Tree) : List ℕ :=
  encLE 4 t.dimensions ++ encLE 8 t.nodes.length ++
  (t.nodes.map (writeNode c)).flatten

/-- Read `k` consecutive `float32` values. -/
def readFloats (c : Codec) : ℕ → List ℕ → Option (List ℚ × List ℕ)
  | 0, s => some ([], s)
  | k + 1, s => do
    let (bs, s) ← readBytes 4 s
    let (xs, s) ← readFloats c k s
    pure (c.fdec bs :: xs, s)

/-- `storage.readNode`: validates the per-node dimension count against the
header value, then reads key, value, timestamp (an undecodable timestamp
becomes the zero time without error) and metadata (end of stream before
the metadata length is accepted for backward compatibility). -/
def readNode (c : Codec) (dims : ℤ) (s : List ℕ) : Option (Node × List ℕ) := do
  let (dimCount, s) ← readI32 s
  if dimCount ≠ dims then none
  else do
    let (key, s) ← readFloats c dims.toNat s
    let (valueLen, s) ← readI64 s
    if valueLen < 0 then none
    else do
      let (value, s) ← readBytes valueLen.toNat s
      let (tsLen, s) ← readI32 s
      let (tsBytes, s) ← readBytes tsLen.toNat s
      let ts := (c.tsdec tsBytes).getD 0
      match readI32 s with
      | none => some (⟨key, value, none, ts⟩, s)
      | some (mdLen, s) =>
        if 0 < mdLen then do
          let (mdBytes, s) ← readBytes mdLen.toNat s
          let md ← c.mddec mdBytes
          pure (⟨key, value, some md, ts⟩, s)
        else
          pure (⟨key, value, none, ts⟩, s)

/-- Read `k` node records. -/
def readNodes (c : Codec) (dims : ℤ) : ℕ → List ℕ → Option (List Node × List ℕ)
  | 0, s => some ([], s)
  | k + 1, s => do
    let (n, s) ← readNode c dims s
    let (ns, s) ← readNodes c dims k s
    pure (n :: ns, s)

/-- `FileStorage.Load` (non-empty file path): read the header, allocate
the tree via `NewTree(int(dimensions))`, read every node and rebuild the
index.  Trailing bytes are ignored. -/
def fileLoad (c : Codec) (s : List ℕ) : Option Tree := do
  let (dims, s) ← readI32 s
  let (count, s) ← readI64 s
  if count < 0 then none
  else do
    let (ns, _) ← readNodes c dims count.toNat s
    pure (Tree.rebuildIndex { newTree dims with nodes := ns })

/-- Metadata tail shared by `readCompressedNode` (split out for
readability; mirrors the final section of the Go function). -/
def readCompressedMd (c : Codec) (key : List ℚ) (value : List ℕ) (ts : ℤ)
    (s : List ℕ) : Option (Node × List ℕ) :=
  match readI32 s with
  | none => some (⟨key, value, none, ts⟩, s)
  | some (mdLen, s) =>
    if 0 < mdLen then
      match readBytes mdLen.toNat s with
      | none => none
      | some (mdBytes, s) =>
        match c.mddec mdBytes with
        | none => none
        | some md => some (⟨key, value, some md, ts⟩, s)
    else
      some (⟨key, value, none, ts⟩, s)

/-- `storage.readCompressedNode`: validates dimensions, reads the
quantised key block (min, max, one byte per dimension), dequantizes, then
the common value/timestamp/metadata tail. -/
def readCompressedNode (c : Codec) (dims : ℤ) (s : List ℕ) :
    Option (Node × List ℕ) := do
  let (dimCount, s) ← readI32 s
  if dimCount ≠ dims then none
  else do
    let (mnB, s) ← readBytes 4 s
    let (mxB, s) ← readBytes 4 s
    let (vals, s) ← readBytes dims.toNat s
    let key := QuantizedVector.dequantize ⟨vals, c.fdec mnB, c.fdec mxB, dims.toNat⟩
    let (valueLen, s) ← readI64 s
    if valueLen < 0 then none
    else do
      let (value, s) ← readBytes valueLen.toNat s
      let (tsLen, s) ← readI32 s
      if 0 < tsLen then do
        let (tsBytes, s) ← readBytes tsLen.toNat s
        let ts := (c.tsdec tsBytes).getD 0
        readCompressedMd c key value ts s
      else
        readCompressedMd c key value 0 s

/-- Read `k` compressed node records. -/
def readCompressedNodes (c : Codec) (dims : ℤ) :
    ℕ → List ℕ → Option (List Node × List ℕ)
  | 0, s => some ([], s)
  | k + 1, s => do
    let (n, s) ← readCompressedNode c dims s
    let (ns, s) ← readCompressedNodes c dims k s
    pure (n :: ns, s)

/-- `CompressedStorage.Load` (non-empty file path): read the header, then
probe one byte for the compression flag.  Only when the probe hits end of
stream is the position rewound (`f.Seek(-1, ...)` in the error branch);
when a byte is present and differs from 1 the byte stays consumed and the
remainder is decoded as the uncompressed variant. -/
def compressedLoad (c : Codec) (s : List ℕ) : Option Tree := do
  let (dims, s) ← readI32 s
  let (count, s) ← readI64 s
  if count < 0 then none
  else
    match s with
    | [] => do
      let (ns, _) ← readNodes c dims count.toNat []
      pure (Tree.rebuildIndex { newTree dims with nodes := ns })
    | flag :: rest =>
      if flag = 1 then do
        let (ns, _) ← readCompressedNodes c dims count.toNat rest
        pure (Tree.rebuildIndex { newTree dims with nodes := ns })
      else do
        let (ns, _) ← readNodes c dims count.toNat rest
        pure (Tree.rebuildIndex { newTree dims with nodes := ns })

/-! ## Client facade (client.go) -/

/-- `client.Client` (the fields that survive construction). -/
structure Client where
  path : String
  dimensions : ℕ
  cachedTree : Option Tree
  dirty : Bool
  verbose : Bool
deriving DecidableEq, Repr

/-- `client.New`: like `types.NewTree`, non-positive dimension counts are
replaced by the 512 default; the function never returns an error. -/
def clientNew (binaryPath : String) (dimensions : ℤ) : Except String Client :=
  Except.ok
    { path := binaryPath
      dimensions := if dimensions ≤ 0 then 512 else dimensions.toNat
      cachedTree := none
      dirty := false
      verbose := true }

/-! ## Specification-side description of search (claims C1/C3/C4) -/

/-- The claim's admission predicate for a node position: within ε of the
query in every one of the D dimensions, matching the filter, and with true
Euclidean distance at most `ε·sqrt(D)·(1−τ)` (squared decidable form; see
`sqrt_le_bound_iff`). -/
def Tree.specAdmits (t : Tree) (q : List ℚ) (eps tau : ℚ)
    (filter : Option Filter) (pos : ℕ) : Bool :=
  decide (∀ d < t.dimensions, |q.getD d 0 - t.nodeKey pos d| ≤ eps) &&
  (t.nodes.getD pos default).matchesFilter filter &&
  distanceOk t.dimensions eps tau (t.sumSq q pos)

/-- Ascending (distance, insertion position) lexicographic order on scored
candidates — the claim's result order. -/
def lexLe (a b : ℕ × ℚ) : Prop :=
  a.2 < b.2 ∨ (a.2 = b.2 ∧ a.1 ≤ b.1)

instance : DecidableRel lexLe := fun a b => by
  unfold lexLe; infer_instance

/-- The frozen claim's description of the search result: the admitted
positions, sorted ascending by distance with ties broken by insertion
position ascending, truncated to the first `topK`, as nodes.  The
program does not guarantee the position tie-break (see
`c1_counterexample`); this definition formalises the claim's words. -/
def Tree.specResult (t : Tree) (q : List ℚ) (eps tau : ℚ) (topK : ℕ)
    (filter : Option Filter) : List Node :=
  ((List.insertionSort lexLe
      (((List.range t.nodes.length).filter (t.specAdmits q eps tau filter)).map
        fun pos => (pos, t.sumSq q pos))).take topK).map
    fun p => t.nodes.getD p.1 default

/-! ## Index well-formedness -/

/-- The index is fully built and correct for the current nodes: one
permutation of `0..N−1` per dimension, each sorted by its key coordinate. -/
def Tree.goodIndex (t : Tree) : Prop :=
  t.index.length = t.dimensions ∧
  ∀ d < t.dimensions,
    (t.index.getD d []).Pairwise (fun i j => t.nodeKey i d ≤ t.nodeKey j d) ∧
    (t.index.getD d []).Perm (List.range t.nodes.length)

instance (t : Tree) : Decidable t.goodIndex := by
  unfold Tree.goodIndex; infer_instance

/-- Index states reachable by the collection: either a rebuild is going to
be triggered by `ensureIndex` (dirty, or no index present), or the index
is fully correct. -/
def Tree.validIndexState (t : Tree) : Prop :=
  t.indexDirty = true ∨ t.index.length = 0 ∨ (t.index.getD 0 []).length = 0 ∨
    t.goodIndex

instance (t : Tree) : Decidable t.validIndexState := by
  unfold Tree.validIndexState; infer_instance

/-- Strict (distance, insertion position) lexicographic order. -/
def lexLt (a b : ℕ × ℚ) : Prop :=
  a.2 < b.2 ∨ (a.2 = b.2 ∧ a.1 < b.1)

/-- The spec's admitted candidates with their squared distances, as the
canonical position-ascending list representative of the admitted
multiset. -/
def Tree.specScored (t : Tree) (q : List ℚ) (eps tau : ℚ)
    (f : Option Filter) : List (ℕ × ℚ) :=
  ((List.range t.nodes.length).filter (t.specAdmits q eps tau f)).map
    fun pos => (pos, t.sumSq q pos)

/-! ## Faithful nondeterministic semantics

Go's map iteration order is randomised and `sort.Slice` is not a stable
sort: the rebuild and search paths leave the order of equal-key index
entries and of equal-distance results unspecified.  They are embedded
as relations between the pre-state and the possible post-states and
results; the executable functions above are one concrete resolution of
this nondeterminism and are proved to satisfy the relations. -/

/-- Faithful `Tree.RebuildIndex` (`sort.Slice` with the key-only `<`
comparator): nodes and dimension count unchanged, the dirty flag
cleared, and each `index[d]` *some* key-sorted permutation of `0..N−1`
(`Tree.goodIndex`) — equal keys land in unspecified order. -/
def Tree.rebuildOutcome (t t' : Tree) : Prop :=
  t'.nodes = t.nodes ∧ t'.dimensions = t.dimensions ∧
  t'.indexDirty = false ∧ t'.goodIndex

instance (t t' : Tree) : Decidable (t.rebuildOutcome t') := by
  unfold Tree.rebuildOutcome; infer_instance

/-- The `ensureIndex` trigger condition: dirty, or no index present. -/
def Tree.needsRebuild (t : Tree) : Prop :=
  t.indexDirty = true ∨ t.index.length = 0 ∨ (t.index.getD 0 []).length = 0

instance (t : Tree) : Decidable t.needsRebuild := by
  unfold Tree.needsRebuild; infer_instance

/-- Faithful `ensureIndex`: a rebuild outcome when triggered, the
identity otherwise. -/
def Tree.ensureOutcome (t t' : Tree) : Prop :=
  (t.needsRebuild ∧ t.rebuildOutcome t') ∨ (¬t.needsRebuild ∧ t' = t)

instance (t t' : Tree) : Decidable (t.ensureOutcome t') := by
  unfold Tree.ensureOutcome; infer_instance

/-- Faithful `Tree.BatchInsert`: validation exactly as in the code; on
success the post-state is some rebuild outcome of the appended
collection. -/
def Tree.batchOutcome (t : Tree) (items : List BatchItem) (now : ℤ)
    (out : Option String × Tree) : Prop :=
  ((∀ it ∈ items, it.key.length = t.dimensions) ∧
    out.1 = none ∧ Tree.rebuildOutcome (t.appendBatch items now) out.2) ∨
  ((∃ it ∈ items, it.key.length ≠ t.dimensions) ∧
    out = (some ("dimension mismatch"), t))

instance (t : Tree) (items : List BatchItem) (now : ℤ)
    (out : Option String × Tree) : Decidable (t.batchOutcome items now out) := by
  unfold Tree.batchOutcome; infer_instance

/-- Faithful `Tree.SearchWithFilter`: after validation the index is
ensured (some `ensureOutcome`); the admitted candidates are collected by
enumerating the candidate map (unspecified order) and sorted by the
unstable `sort.Slice` on the distance only, so the scored list the code
truncates to `topK` is *some* distance-sorted permutation of the
admitted candidate multiset. -/
def Tree.searchOutcome (t : Tree) (q : List ℚ) (eps tau : ℚ) (k : ℕ)
    (f : Option Filter) (blocks : List (ℕ × ℕ))
    (out : Except String (List Node) × Tree) : Prop :=
  (q.length ≠ t.dimensions ∧ out = (Except.error ("dimension mismatch"), t)) ∨
  (q.length = t.dimensions ∧ t.nodes.length = 0 ∧ out = (Except.ok [], t)) ∨
  (q.length = t.dimensions ∧ t.nodes.length ≠ 0 ∧
    ∃ t1, t.ensureOutcome t1 ∧
      ∃ res : List (ℕ × ℚ),
        res.Perm (t1.admittedScored q eps tau f blocks) ∧
        res.Pairwise (fun a b : ℕ × ℚ => a.2 ≤ b.2) ∧
        out = (Except.ok ((res.take k).map fun p => t1.nodes.getD p.1 default),
          t1))

/-! ## A concrete well-formed payload codec (witness constructions) -/

/-- Injective `String → ℕ` via the character codes. -/
def strEnc (s : String) : ℕ := Encodable.encode (s.data.map Char.toNat)

/-- Partial inverse of `strEnc`. -/
def strDec (n : ℕ) : Option String :=
  (Encodable.decode n).map fun l : List ℕ => ⟨l.map Char.ofNat⟩

/-- Injective `MVal → ℕ`. -/
def mvalEnc : MVal → ℕ
  | .str s => 4 * strEnc s
  | .num q => 4 * Encodable.encode q + 1
  | .bool b => 4 * (cond b 1 0) + 2
  | .null => 3

/-- Partial inverse of `mvalEnc`. -/
def mvalDec (n : ℕ) : Option MVal :=
  match n % 4 with
  | 0 => (strDec (n / 4)).map MVal.str
  | 1 => (Encodable.decode (n / 4)).map MVal.num
  | 2 => some (MVal.bool (n / 4 = 1))
  | _ => some MVal.null

/-- Injective `Md → ℕ`. -/
def mdEnc (m : Md) : ℕ :=
  Encodable.encode (m.map fun p => (strEnc p.1, mvalEnc p.2))

/-- Partial inverse of `mdEnc`. -/
def mdDec (n : ℕ) : Option Md := do
  let l ← (Encodable.decode n : Option (List (ℕ × ℕ)))
  l.mapM fun p => do
    let s ← strDec p.1
    let v ← mvalDec p.2
    pure ((s, v) : String × MVal)

/-- A concrete codec satisfying `Codec.Wf` (bytes of the model are
unrestricted naturals, so one entry can carry a whole encoded value). -/
def natCodec : Codec where
  fenc q := [Encodable.encode q, 0, 0, 0]
  fdec bs := (Encodable.decode (bs.headD 0)).getD 0
  tsenc t := [Encodable.encode t]
  tsdec bs := match bs with | [b] => Encodable.decode b | _ => none
  mdenc m := [mdEnc m]
  mddec bs := match bs with | [b] => mdDec b | _ => none



instance {ε α : Type} [DecidableEq ε] [DecidableEq α] :
    DecidableEq (Except ε α) := fun x y =>
  match x, y with
  | .ok a, .ok b => decidable_of_iff (a = b) (by simp)
  | .error a, .error b => decidable_of_iff (a = b) (by simp)
  | .ok _, .error _ => isFalse (by simp)
  | .error _, .ok _ => isFalse (by simp)

/-- Well-formed collection for persistence: positive dimension count that
fits `int32`, node count fitting `int64`, invariant I1, value lengths
fitting `int64`. -/
def Tree.saveWf (t : Tree) : Prop :=
  0 < t.dimensions ∧ t.dimensions < 2 ^ 31 ∧ t.nodes.length < 2 ^ 63 ∧
  ∀ n ∈ t.nodes, n.key.length = t.dimensions ∧ n.value.length < 2 ^ 63

instance (t : Tree) : Decidable t.saveWf := by
  unfold Tree.saveWf; infer_instance

/-! ## Concrete instances used in the claim analyses -/

/-- Quantised vector with a single value 200 (scale `[0,255]`). -/
def qv200 : QuantizedVector := ⟨[200], 0, 255, 1⟩

/-- Quantised vector with a single value 0 (scale `[0,255]`). -/
def qv0 : QuantizedVector := ⟨[0], 0, 255, 1⟩

/-- A two-dimensional quantised vector. -/
def qv2d : QuantizedVector := ⟨[0, 0], 0, 255, 2⟩

/-- A 3-dimensional one-node collection (legacy-file scenario of C7). -/
def c7Tree : Tree := ⟨3, [⟨[0, 0, 0], [], none, 0⟩], List.replicate 3 [], false⟩

/-- A 1-dimensional one-node collection with key 1 and a clean index. -/
def c8Tree : Tree := ⟨1, [⟨[1], [65], none, 0⟩], [[0]], false⟩

/-- The state of `c8Tree` after inserting a second node with the equal
key 1 through the incremental-splice path. -/
def c8After : Tree := (c8Tree.insertWithMetadata [1] [66] none 7).2

/-- A 1-dimensional one-node collection used by several witnesses. -/
def wTree : Tree := ⟨1, [⟨[5], [1], none, 0⟩], [[0]], false⟩

/-- First of two nodes sharing the key `[0]` (distance ties). -/
def tieNodeA : Node := ⟨[0], [0], none, 0⟩

/-- Second of two nodes sharing the key `[0]`. -/
def tieNodeB : Node := ⟨[0], [1], none, 0⟩

/-- A clean, correctly indexed 1-D collection holding two nodes at the
same key — every query puts them at the same distance. -/
def tieTree : Tree := ⟨1, [tieNodeA, tieNodeB], [[0, 1]], false⟩

/-- The collection `fileLoad` reconstructs from `tieTree`'s bytes. -/
def tieLoaded : Tree :=
  Tree.rebuildIndex ⟨1, [tieNodeA, tieNodeB], List.replicate 1 [], false⟩

/-- First of two 2-D nodes sharing the key `[0, 0]`. -/
def tie2NodeA : Node := ⟨[0, 0], [0], none, 0⟩

/-- Second of two 2-D nodes sharing the key `[0, 0]`. -/
def tie2NodeB : Node := ⟨[0, 0], [1], none, 0⟩

/-- A clean, correctly indexed 2-D collection with a distance tie,
admitting a genuine two-block worker partition. -/
def tie2Tree : Tree := ⟨2, [tie2NodeA, tie2NodeB], [[0, 1], [0, 1]], false⟩

/-- An empty 1-D collection (the C2 counterexample's starting state). -/
def batchTree : Tree := ⟨1, [], [[]], false⟩

/-- A rebuild outcome of batch-inserting two equal-key items into
`batchTree` in which `sort.Slice` left the tied positions as `[1, 0]`. -/
def batchBad : Tree :=
  ⟨1, [⟨[1], [0], none, 0⟩, ⟨[1], [1], none, 0⟩], [[1, 0]], false⟩

/-! # Theorems -/

/-! ## Little-endian integer codec -/

theorem encLE_length (w n : ℕ) : (encLE w n).length = w := by
  induction w generalizing n with
  | zero => rfl
  | succ w ih => simp [encLE, ih]

theorem decLE_encLE (w n : ℕ) : decLE (encLE w n) = n % 256 ^ w := by
  induction w generalizing n with
  | zero => simp [encLE, decLE, Nat.mod_one]
  | succ w ih =>
    have h256 : (256 : ℕ) ^ (w + 1) = 256 * 256 ^ w := by ring
    simp only [encLE, decLE, List.foldr_cons]
    have : decLE (encLE w (n / 256)) = n / 256 % 256 ^ w := ih (n / 256)
    simp only [decLE] at this
    rw [this, h256, Nat.mod_mul]

theorem readBytes_exact {k : ℕ} {l r : List ℕ} (h : l.length = k) :
    readBytes k (l ++ r) = some (l, r) := by
  simp [readBytes, ← h, List.take_left' rfl, List.drop_left' rfl]

theorem readI32_enc {n : ℕ} (h : n < 2 ^ 31) (r : List ℕ) :
    readI32 (encLE 4 n ++ r) = some ((n : ℤ), r) := by
  rw [readI32, readBytes_exact (encLE_length 4 n)]
  have h32 : (256 : ℕ) ^ 4 = 2 ^ 32 := by norm_num
  have hn : n % 2 ^ 32 = n := Nat.mod_eq_of_lt (by omega)
  simp [decLE_encLE, h32, toSigned, hn, Nat.mod_eq_of_lt, h]
  omega

theorem readI64_enc {n : ℕ} (h : n < 2 ^ 63) (r : List ℕ) :
    readI64 (encLE 8 n ++ r) = some ((n : ℤ), r) := by
  rw [readI64, readBytes_exact (encLE_length 8 n)]
  have h64 : (256 : ℕ) ^ 8 = 2 ^ 64 := by norm_num
  have hn : n % 2 ^ 64 = n := Nat.mod_eq_of_lt (by omega)
  simp [decLE_encLE, h64, toSigned, hn, Nat.mod_eq_of_lt, h]
  omega

/-! ## Node record round-trip -/

theorem readFloats_enc {c : Codec} (hc : c.Wf) (key : List ℚ) (r : List ℕ) :
    readFloats c key.length ((key.map c.fenc).flatten ++ r) = some (key, r) := by
  induction key generalizing r with
  | nil => simp [readFloats]
  | cons x xs ih =>
    simp only [List.map_cons, List.flatten_cons, List.length_cons, List.append_assoc]
    rw [readFloats, readBytes_exact (hc.fenc_length x)]
    simp [ih, hc.fdec_fenc]

theorem readNode_writeNode {c : Codec} (hc : c.Wf) (n : Node) {D : ℕ}
    (hD : n.key.length = D) (hD31 : D < 2 ^ 31) (hv : n.value.length < 2 ^ 63)
    (r : List ℕ) :
    readNode c (D : ℤ) (writeNode c n ++ r) = some (n, r) := by
  rw [writeNode]
  simp only [List.append_assoc]
  rw [readNode, hD, readI32_enc hD31]
  simp only [Option.bind_eq_bind, Option.some_bind, if_neg (by simp : ¬((D : ℤ) ≠ (D : ℤ)))]
  rw [Int.toNat_natCast, ← hD, readFloats_enc hc]
  simp only [Option.some_bind]
  rw [readI64_enc hv]
  simp only [Option.some_bind, if_neg (not_lt.mpr (Int.natCast_nonneg _))]
  rw [Int.toNat_natCast, readBytes_exact rfl]
  simp only [Option.some_bind]
  rw [readI32_enc (hc.tsenc_length n.timestamp)]
  simp only [Option.some_bind]
  rw [Int.toNat_natCast, readBytes_exact rfl]
  simp only [Option.some_bind, hc.tsdec_tsenc, Option.getD_some]
  cases hmd : n.metadata with
  | none =>
    simp only [hmd]
    rw [show (encLE 4 (List.length []) ++ ([] ++ r)) = encLE 4 0 ++ r by simp,
      readI32_enc (by norm_num)]
    simp only [Nat.cast_zero, if_neg (lt_irrefl (0 : ℤ))]
    refine congrArg some ?_
    refine Prod.ext ?_ rfl
    cases n
    simp_all
  | some m =>
    simp only [hmd]
    rw [readI32_enc (hc.mdenc_length m)]
    simp only [Option.some_bind]
    have hpos : (0 : ℤ) < ((c.mdenc m).length : ℤ) := by
      exact_mod_cast hc.mdenc_pos m
    rw [if_pos hpos, Int.toNat_natCast, readBytes_exact rfl]
    simp only [Option.some_bind, hc.mddec_mdenc m, Option.some_bind]
    refine congrArg some ?_
    refine Prod.ext ?_ rfl
    cases n
    simp_all

theorem readNodes_writeNodes {c : Codec} (hc : c.Wf) (ns : List Node) {D : ℕ}
    (hD : ∀ n ∈ ns, n.key.length = D) (hD31 : D < 2 ^ 31)
    (hv : ∀ n ∈ ns, n.value.length < 2 ^ 63) (r : List ℕ) :
    readNodes c (D : ℤ) ns.length ((ns.map (writeNode c)).flatten ++ r) =
      some (ns, r) := by
  induction ns generalizing r with
  | nil => simp [readNodes]
  | cons x xs ih =>
    simp only [List.map_cons, List.flatten_cons, List.length_cons, List.append_assoc]
    rw [readNodes, readNode_writeNode hc x (hD x (by simp)) hD31 (hv x (by simp))]
    simp only [Option.bind_eq_bind, Option.some_bind]
    rw [ih (fun n hn => hD n (by simp [hn])) (fun n hn => hv n (by simp [hn]))]
    rfl

/-! ## Container round-trip -/

theorem newTree_pos {D : ℕ} (hD : 0 < D) :
    newTree (D : ℤ) = ⟨D, [], List.replicate D [], false⟩ := by
  rw [newTree]
  have : ¬ ((D : ℤ) ≤ 0) := by exact_mod_cast not_le.mpr hD
  simp [this]

theorem fileLoad_fileSave {c : Codec} (hc : c.Wf) (t : Tree) (hwf : t.saveWf) :
    fileLoad c (fileSave c t) =
      some (Tree.rebuildIndex
        { dimensions := t.dimensions, nodes := t.nodes,
          index := List.replicate t.dimensions [], indexDirty := false }) := by
  obtain ⟨hD, hD31, hN, hn⟩ := hwf
  rw [fileSave]
  simp only [List.append_assoc]
  rw [fileLoad, readI32_enc hD31]
  simp only [Option.bind_eq_bind, Option.some_bind]
  rw [show ((t.nodes.map (writeNode c)).flatten : List ℕ) =
      (t.nodes.map (writeNode c)).flatten ++ [] by simp]
  rw [readI64_enc hN]
  simp only [Option.some_bind, if_neg (not_lt.mpr (Int.natCast_nonneg _)),
    Int.toNat_natCast]
  rw [readNodes_writeNodes hc t.nodes (fun n h => (hn n h).1) hD31
    (fun n h => (hn n h).2)]
  simp only [Option.some_bind]
  rw [newTree_pos hD]
  rfl


/-! ## Parallel scan: merging local counters -/

theorem blocksCoverAux_le {blocks : List (ℕ × ℕ)} {s D : ℕ}
    (h : blocksCoverAux s D blocks = true) : s ≤ D := by
  induction blocks generalizing s with
  | nil => simp [blocksCoverAux] at h; omega
  | cons b r ih =>
    simp only [blocksCoverAux, Bool.and_eq_true, decide_eq_true_eq] at h
    exact le_trans h.1.2 (ih h.2)

theorem localHits_split (t : Tree) (q : List ℚ) (eps : ℚ) {s e f : ℕ}
    (hse : s ≤ e) (hef : e ≤ f) (pos : ℕ) :
    t.localHits q eps s e pos + t.localHits q eps e f pos =
      t.localHits q eps s f pos := by
  unfold Tree.localHits
  rw [← List.sum_append, ← List.map_append]
  have h1 : e = s + 1 * (e - s) := by omega
  have : List.range' s (e - s) ++ List.range' e (f - e) = List.range' s (f - s) := by
    rw [show List.range' e (f - e) = List.range' (s + 1 * (e - s)) (f - e) by rw [← h1]]
    rw [List.range'_append]
    congr 1
    omega
  rw [this]

theorem mergedHits_aux (t : Tree) (q : List ℚ) (eps : ℚ) (D pos : ℕ) :
    ∀ (blocks : List (ℕ × ℕ)) (s : ℕ), blocksCoverAux s D blocks = true →
      t.mergedHits q eps blocks pos = t.localHits q eps s D pos := by
  intro blocks
  induction blocks with
  | nil =>
    intro s hs
    simp only [blocksCoverAux, decide_eq_true_eq] at hs
    subst hs
    simp [Tree.mergedHits, Tree.localHits]
  | cons b r ih =>
    intro s hs
    simp only [blocksCoverAux, Bool.and_eq_true, decide_eq_true_eq] at hs
    obtain ⟨⟨h1, h2⟩, h3⟩ := hs
    have hbD : b.2 ≤ D := blocksCoverAux_le h3
    rw [Tree.mergedHits, List.map_cons, List.sum_cons]
    rw [show (r.map fun bl => t.localHits q eps bl.1 bl.2 pos).sum =
        t.mergedHits q eps r pos from rfl]
    rw [ih b.2 h3, h1, localHits_split t q eps h2 hbD]

theorem mergedHits_cover (t : Tree) (q : List ℚ) (eps : ℚ)
    {blocks : List (ℕ × ℕ)} {D : ℕ} (h : blocksCover D blocks = true) (pos : ℕ) :
    t.mergedHits q eps blocks pos = t.localHits q eps 0 D pos :=
  mergedHits_aux t q eps D pos blocks 0 h

/-! ## Index correctness of rebuilds -/

theorem rebuildIndex_nodes (t : Tree) : t.rebuildIndex.nodes = t.nodes := rfl

theorem rebuildIndex_dimensions (t : Tree) :
    t.rebuildIndex.dimensions = t.dimensions := rfl

theorem rebuildIndex_getD (t : Tree) {d : ℕ} (hd : d < t.dimensions) :
    t.rebuildIndex.index.getD d [] =
      List.insertionSort (fun i j => t.nodeKey i d ≤ t.nodeKey j d)
        (List.range t.nodes.length) := by
  rw [Tree.rebuildIndex]
  simp only
  rw [List.getD_eq_getElem?_getD, List.getElem?_map]
  simp [List.getElem?_range, hd]

theorem rebuildIndex_goodIndex (t : Tree) : t.rebuildIndex.goodIndex := by
  refine ⟨by simp [Tree.rebuildIndex], fun d hd => ?_⟩
  rw [rebuildIndex_dimensions] at hd
  rw [rebuildIndex_getD t hd, rebuildIndex_nodes]
  simp only [show t.rebuildIndex.nodeKey = t.nodeKey from rfl]
  constructor
  · haveI : IsTotal ℕ (fun i j => t.nodeKey i d ≤ t.nodeKey j d) :=
      ⟨fun a b => le_total _ _⟩
    haveI : IsTrans ℕ (fun i j => t.nodeKey i d ≤ t.nodeKey j d) :=
      ⟨fun a b c hab hbc => le_trans hab hbc⟩
    exact List.sorted_insertionSort _ _
  · exact List.perm_insertionSort _ _

theorem ensureIndex_nodes (t : Tree) : t.ensureIndex.nodes = t.nodes := by
  rw [Tree.ensureIndex]; split <;> rfl

theorem ensureIndex_dimensions (t : Tree) :
    t.ensureIndex.dimensions = t.dimensions := by
  rw [Tree.ensureIndex]; split <;> rfl

theorem ensureIndex_goodIndex (t : Tree) (h : t.validIndexState) :
    t.ensureIndex.goodIndex := by
  rw [Tree.ensureIndex]
  rcases h with h | h | h | h
  · rw [if_pos (Or.inl h)]; exact rebuildIndex_goodIndex t
  · rw [if_pos (Or.inr (Or.inl h))]; exact rebuildIndex_goodIndex t
  · rw [if_pos (Or.inr (Or.inr h))]; exact rebuildIndex_goodIndex t
  · split
    · exact rebuildIndex_goodIndex t
    · exact h

/-! ## The executable functions resolve the nondeterministic contracts -/

theorem rebuildIndex_isOutcome (t : Tree) : t.rebuildOutcome t.rebuildIndex :=
  ⟨rebuildIndex_nodes t, rebuildIndex_dimensions t, rfl,
    rebuildIndex_goodIndex t⟩

theorem ensureIndex_isOutcome (t : Tree) : t.ensureOutcome t.ensureIndex := by
  rw [Tree.ensureOutcome]
  by_cases h : t.needsRebuild
  · refine Or.inl ⟨h, ?_⟩
    rw [Tree.needsRebuild] at h
    rw [Tree.ensureIndex, if_pos h]
    exact rebuildIndex_isOutcome t
  · refine Or.inr ⟨h, ?_⟩
    rw [Tree.needsRebuild] at h
    rw [Tree.ensureIndex, if_neg h]

theorem ensureOutcome_nodes {t t' : Tree} (h : t.ensureOutcome t') :
    t'.nodes = t.nodes := by
  rw [Tree.ensureOutcome, Tree.rebuildOutcome] at h
  rcases h with ⟨-, hn, -, -, -⟩ | ⟨-, rfl⟩
  · exact hn
  · rfl

theorem ensureOutcome_dimensions {t t' : Tree} (h : t.ensureOutcome t') :
    t'.dimensions = t.dimensions := by
  rw [Tree.ensureOutcome, Tree.rebuildOutcome] at h
  rcases h with ⟨-, -, hd, -, -⟩ | ⟨-, rfl⟩
  · exact hd
  · rfl

theorem ensureOutcome_goodIndex {t t' : Tree} (hvalid : t.validIndexState)
    (h : t.ensureOutcome t') : t'.goodIndex := by
  rw [Tree.ensureOutcome, Tree.rebuildOutcome] at h
  rcases h with ⟨-, -, -, -, hg⟩ | ⟨hnr, rfl⟩
  · exact hg
  · rw [Tree.needsRebuild] at hnr
    rcases hvalid with hd | hl | h0 | hg
    · exact absurd (Or.inl hd) hnr
    · exact absurd (Or.inr (Or.inl hl)) hnr
    · exact absurd (Or.inr (Or.inr h0)) hnr
    · exact hg

/-! ## Range-scan characterisation on a sorted permutation -/

theorem sorted_getElem_le (key : ℕ → ℚ) {l : List ℕ}
    (h : l.Pairwise fun a b => key a ≤ key b) {i j : ℕ} (hij : i ≤ j)
    (hj : j < l.length) :
    key (l.get ⟨i, lt_of_le_of_lt hij hj⟩) ≤ key (l.get ⟨j, hj⟩) := by
  rcases eq_or_lt_of_le hij with h' | h'
  · subst h'; rfl
  · exact List.pairwise_iff_getElem.mp h i j (lt_of_le_of_lt hij hj) hj h'

theorem mem_scan_slice (key : ℕ → ℚ) {N : ℕ} (idx : List ℕ)
    (hsort : idx.Pairwise fun i j => key i ≤ key j)
    (hperm : idx.Perm (List.range N)) (lo hi : ℚ) (pos : ℕ) :
    (pos ∈ (idx.drop (idx.findIdx fun p => decide (lo ≤ key p))).take
        ((idx.findIdx fun p => decide (hi < key p)) -
          (idx.findIdx fun p => decide (lo ≤ key p)))) ↔
      pos < N ∧ lo ≤ key pos ∧ key pos ≤ hi := by
  set p₁ : ℕ → Bool := fun p => decide (lo ≤ key p) with hp₁
  set p₂ : ℕ → Bool := fun p => decide (hi < key p) with hp₂
  set s := idx.findIdx p₁ with hs
  set e := idx.findIdx p₂ with he
  have hmemN : ∀ x, x ∈ idx ↔ x < N := fun x => by
    rw [hperm.mem_iff, List.mem_range]
  constructor
  · intro h
    have hsub : ((idx.drop s).take (e - s)).Sublist idx :=
      (List.take_sublist _ _).trans (List.drop_sublist _ _)
    obtain ⟨j, hj, hget⟩ := List.getElem_of_mem h
    have hj' : j < e - s ∧ j < idx.length - s := by
      have := hj
      rw [List.length_take, lt_min_iff, List.length_drop] at this
      exact this
    have hse : s + j < idx.length := by omega
    have hje : s + j < e := by omega
    simp only [List.getElem_take, List.getElem_drop] at hget
    have h1 : lo ≤ key pos := by
      have hslen : s < idx.length := by omega
      have hps : p₁ (idx.get ⟨s, hslen⟩) = true :=
        @List.findIdx_getElem _ p₁ idx hslen
      have hle := sorted_getElem_le key hsort (Nat.le_add_right s j) hse
      have hpos : idx.get ⟨s + j, hse⟩ = pos := hget
      rw [hpos] at hle
      rw [hp₁] at hps
      simp only [decide_eq_true_eq] at hps
      exact le_trans hps hle
    have h2 : key pos ≤ hi := by
      have hfalse : p₂ (idx.get ⟨s + j, hse⟩) = false :=
        @List.not_of_lt_findIdx _ p₂ idx (s + j) hje
      have hpos : idx.get ⟨s + j, hse⟩ = pos := hget
      rw [hpos, hp₂] at hfalse
      simpa using hfalse
    exact ⟨(hmemN pos).mp (hsub.subset h), h1, h2⟩
  · rintro ⟨hN, h1, h2⟩
    obtain ⟨j, hj, hget⟩ := List.getElem_of_mem ((hmemN pos).mpr hN)
    have hget' : idx.get ⟨j, hj⟩ = pos := hget
    have hsj : s ≤ j := by
      by_contra hcon
      have hfalse : p₁ (idx.get ⟨j, hj⟩) = false :=
        @List.not_of_lt_findIdx _ p₁ idx j (by omega)
      rw [hget', hp₁] at hfalse
      simp only [decide_eq_false_iff_not] at hfalse
      exact hfalse h1
    have hje : j < e := by
      by_contra hcon
      push_neg at hcon
      have helen : e < idx.length := lt_of_le_of_lt hcon hj
      have hpe : p₂ (idx.get ⟨e, helen⟩) = true :=
        @List.findIdx_getElem _ p₂ idx helen
      rw [hp₂] at hpe
      simp only [decide_eq_true_eq] at hpe
      have hle := sorted_getElem_le key hsort hcon hj
      rw [hget'] at hle
      exact absurd (le_trans hle h2) (not_le.mpr hpe)
    rw [List.mem_iff_getElem]
    have hlen1 : j - s < ((idx.drop s).take (e - s)).length := by
      rw [List.length_take, lt_min_iff, List.length_drop]
      omega
    refine ⟨j - s, hlen1, ?_⟩
    have hd : j - s < (idx.drop s).length := by
      rw [List.length_drop]; omega
    rw [List.getElem_take, List.getElem_drop]
    have hj2 : s + (j - s) = j := by omega
    simp only [hj2]
    exact hget

theorem count_slice (key : ℕ → ℚ) {N : ℕ} (idx : List ℕ)
    (hsort : idx.Pairwise fun i j => key i ≤ key j)
    (hperm : idx.Perm (List.range N)) (lo hi : ℚ) (pos : ℕ) :
    (((idx.drop (idx.findIdx fun p => decide (lo ≤ key p))).take
        ((idx.findIdx fun p => decide (hi < key p)) -
          (idx.findIdx fun p => decide (lo ≤ key p)))).count pos) =
      if pos < N ∧ lo ≤ key pos ∧ key pos ≤ hi then 1 else 0 := by
  have hnd : idx.Nodup := hperm.nodup_iff.mpr (List.nodup_range _)
  have hsub : (((idx.drop (idx.findIdx fun p => decide (lo ≤ key p))).take
      ((idx.findIdx fun p => decide (hi < key p)) -
        (idx.findIdx fun p => decide (lo ≤ key p))))).Sublist idx :=
    (List.take_sublist _ _).trans (List.drop_sublist _ _)
  have hmem := mem_scan_slice key idx hsort hperm lo hi pos
  by_cases h : pos < N ∧ lo ≤ key pos ∧ key pos ≤ hi
  · rw [if_pos h]
    exact List.count_eq_one_of_mem (hsub.nodup hnd) (hmem.mpr h)
  · rw [if_neg h]
    exact List.count_eq_zero.mpr fun hc => h (hmem.mp hc)

/-! ## Per-dimension hit counts -/

theorem dimScan_count (t : Tree) (q : List ℚ) (eps : ℚ) {d : ℕ} (pos : ℕ)
    (hd : d < t.dimensions) (hgood : t.goodIndex) :
    (t.dimScan q eps d).count pos =
      if pos < t.nodes.length ∧ |q.getD d 0 - t.nodeKey pos d| ≤ eps then 1
      else 0 := by
  obtain ⟨hlen, hall⟩ := hgood
  obtain ⟨hsort, hperm⟩ := hall d hd
  rw [Tree.dimScan]
  rw [count_slice (fun p => t.nodeKey p d) (t.index.getD d []) hsort hperm]
  congr 1
  simp only [eq_iff_iff]
  constructor
  · rintro ⟨h1, h2, h3⟩
    refine ⟨h1, ?_⟩
    rw [abs_le]
    constructor <;> linarith
  · rintro ⟨h1, h2⟩
    rw [abs_le] at h2
    exact ⟨h1, by linarith [h2.1, h2.2], by linarith [h2.1, h2.2]⟩

theorem sum_map_ite {α : Type} (l : List α) (p : α → Bool) :
    (l.map fun a => if p a = true then 1 else 0).sum = l.countP p := by
  induction l with
  | nil => rfl
  | cons x xs ih =>
    by_cases h : p x = true
    · simp [List.countP_cons, h, ih, Nat.add_comm]
    · simp [List.countP_cons, h, ih]

theorem localHits_full (t : Tree) (q : List ℚ) (eps : ℚ) (pos : ℕ)
    (hgood : t.goodIndex) :
    t.localHits q eps 0 t.dimensions pos =
      (List.range t.dimensions).countP fun d =>
        decide (pos < t.nodes.length ∧ |q.getD d 0 - t.nodeKey pos d| ≤ eps) := by
  rw [Tree.localHits]
  rw [show List.range' 0 (t.dimensions - 0) = List.range t.dimensions by
    simp [List.range_eq_range']]
  rw [← sum_map_ite]
  congr 1
  refine List.map_congr_left fun d hd => ?_
  rw [List.mem_range] at hd
  rw [dimScan_count t q eps pos hd hgood]
  by_cases h : pos < t.nodes.length ∧ |q.getD d 0 - t.nodeKey pos d| ≤ eps
  · rw [if_pos h, if_pos (by simpa using h)]
  · rw [if_neg h, if_neg (by simpa using h)]

theorem mergedHits_eq_dims_iff (t : Tree) (q : List ℚ) (eps : ℚ) {pos : ℕ}
    {blocks : List (ℕ × ℕ)} (hb : blocksCover t.dimensions blocks = true)
    (hgood : t.goodIndex) (hpos : pos < t.nodes.length) :
    (t.mergedHits q eps blocks pos = t.dimensions ↔
      ∀ d < t.dimensions, |q.getD d 0 - t.nodeKey pos d| ≤ eps) := by
  rw [mergedHits_cover t q eps hb pos, localHits_full t q eps pos hgood]
  constructor
  · intro h d hd
    have hlen : (List.range t.dimensions).length = t.dimensions :=
      List.length_range t.dimensions
    nth_rewrite 2 [← hlen] at h
    have := List.countP_eq_length.mp h d (List.mem_range.mpr hd)
    simp only [decide_eq_true_eq] at this
    exact this.2
  · intro h
    have : ∀ a ∈ List.range t.dimensions,
        (fun d => decide (pos < t.nodes.length ∧
          |q.getD d 0 - t.nodeKey pos d| ≤ eps)) a = true := by
      intro a ha
      rw [List.mem_range] at ha
      simp only [decide_eq_true_eq]
      exact ⟨hpos, h a ha⟩
    rw [List.countP_eq_length.mpr this, List.length_range]

/-! ## Stability: sorting a position-ascending list by distance gives the
(distance, position) lexicographic order -/

theorem orderedInsert_pairwise_lex {α : Type} (meas : α → ℚ) (tag : α → ℕ)
    (x : α) (s : List α)
    (hs : s.Pairwise fun a b => meas a < meas b ∨ (meas a = meas b ∧ tag a < tag b))
    (hx : ∀ b ∈ s, tag x < tag b) :
    (List.orderedInsert (fun a b => meas a ≤ meas b) x s).Pairwise
      fun a b => meas a < meas b ∨ (meas a = meas b ∧ tag a < tag b) := by
  induction s with
  | nil => simp
  | cons b s' ih =>
    rw [List.orderedInsert]
    split
    case isTrue h =>
      refine List.Pairwise.cons ?_ hs
      intro c hc
      rcases List.mem_cons.mp hc with rfl | hc'
      · rcases lt_or_eq_of_le h with h' | h'
        · exact Or.inl h'
        · exact Or.inr ⟨h', hx _ (by simp)⟩
      · have hbc := (List.pairwise_cons.mp hs).1 c hc'
        rcases hbc with h1 | ⟨h1, _⟩
        · exact Or.inl (lt_of_le_of_lt h h1)
        · rcases lt_or_eq_of_le h with h' | h'
          · exact Or.inl (lt_of_lt_of_le h' (le_of_eq h1))
          · exact Or.inr ⟨h'.trans h1, hx _ (by simp [hc'])⟩
    case isFalse h =>
      push_neg at h
      have hb := (List.pairwise_cons.mp hs).1
      have hs' := (List.pairwise_cons.mp hs).2
      refine List.Pairwise.cons ?_ (ih hs' fun c hc => hx c (by simp [hc]))
      intro c hc
      rcases (List.mem_orderedInsert _).mp hc with rfl | hc'
      · exact Or.inl h
      · exact hb c hc'

theorem insertionSort_pairwise_lex {α : Type} (meas : α → ℚ) (tag : α → ℕ)
    (l : List α) (hl : l.Pairwise fun a b => tag a < tag b) :
    (List.insertionSort (fun a b => meas a ≤ meas b) l).Pairwise
      fun a b => meas a < meas b ∨ (meas a = meas b ∧ tag a < tag b) := by
  induction l with
  | nil => simp
  | cons x xs ih =>
    rw [List.insertionSort]
    have hx : ∀ b ∈ List.insertionSort (fun a b => meas a ≤ meas b) xs,
        tag x < tag b := by
      intro b hb
      have hbxs : b ∈ xs := (List.perm_insertionSort _ xs).mem_iff.mp hb
      exact (List.pairwise_cons.mp hl).1 b hbxs
    exact orderedInsert_pairwise_lex meas tag x _
      (ih (List.pairwise_cons.mp hl).2) hx

/-! ## The two sort orders coincide on position-ascending inputs -/

theorem lexLt_antisymm : ∀ a b : ℕ × ℚ, lexLt a b → lexLt b a → a = b := by
  rintro a b (h1 | ⟨h1, h2⟩) (h3 | ⟨h3, h4⟩)
  · exact absurd h3 (lt_asymm h1)
  · exact absurd h3 (ne_of_gt h1)
  · exact absurd h3 (not_lt.mpr (le_of_eq h1))
  · exact absurd h4 (lt_asymm h2)

theorem insertionSort_snd_eq_lex (AS : List (ℕ × ℚ))
    (h : AS.Pairwise fun a b => a.1 < b.1) :
    List.insertionSort (fun a b => a.2 ≤ b.2) AS =
      List.insertionSort lexLe AS := by
  haveI : IsTotal (ℕ × ℚ) lexLe := by
    refine ⟨fun a b => ?_⟩
    rcases lt_trichotomy a.2 b.2 with h' | h' | h'
    · exact Or.inl (Or.inl h')
    · rcases le_total a.1 b.1 with h2 | h2
      · exact Or.inl (Or.inr ⟨h', h2⟩)
      · exact Or.inr (Or.inr ⟨h'.symm, h2⟩)
    · exact Or.inr (Or.inl h')
  haveI : IsTrans (ℕ × ℚ) lexLe := by
    refine ⟨fun a b c hab hbc => ?_⟩
    rcases hab with h1 | ⟨h1, h2⟩ <;> rcases hbc with h3 | ⟨h3, h4⟩
    · exact Or.inl (lt_trans h1 h3)
    · exact Or.inl (lt_of_lt_of_le h1 (le_of_eq h3))
    · exact Or.inl (lt_of_le_of_lt (le_of_eq h1) h3)
    · exact Or.inr ⟨h1.trans h3, le_trans h2 h4⟩
  haveI : IsAntisymm (ℕ × ℚ) lexLt := ⟨lexLt_antisymm⟩
  refine List.eq_of_perm_of_sorted (r := lexLt)
    ((List.perm_insertionSort _ AS).trans (List.perm_insertionSort lexLe AS).symm)
    ?_ ?_
  · exact (insertionSort_pairwise_lex Prod.snd Prod.fst AS h).imp fun hab => hab
  · have hsorted : (List.insertionSort lexLe AS).Pairwise lexLe :=
      List.sorted_insertionSort lexLe AS
    have hne : (List.insertionSort lexLe AS).Pairwise fun a b => a.1 ≠ b.1 := by
      exact ((List.perm_insertionSort lexLe AS).pairwise_iff
          (fun hab => Ne.symm hab)).mpr
        (h.imp fun hab => ne_of_lt hab)
    exact (hsorted.and hne).imp fun hab =>
      hab.1.elim Or.inl fun h2 => Or.inr ⟨h2.1, lt_of_le_of_ne h2.2 hab.2⟩

/-! ## The search pipeline equals the specification description -/

theorem specResult_congr {t₁ t₂ : Tree} (hn : t₁.nodes = t₂.nodes)
    (hd : t₁.dimensions = t₂.dimensions) (q : List ℚ) (eps tau : ℚ) (k : ℕ)
    (f : Option Filter) :
    t₁.specResult q eps tau k f = t₂.specResult q eps tau k f := by
  cases t₁ with
  | mk d₁ n₁ i₁ b₁ =>
    cases t₂ with
    | mk d₂ n₂ i₂ b₂ =>
      simp only at hn hd
      subst hn
      subst hd
      rfl

theorem specResult_nil (t : Tree) (q : List ℚ) (eps tau : ℚ) (k : ℕ)
    (f : Option Filter) (hN : t.nodes.length = 0) :
    t.specResult q eps tau k f = [] := by
  rw [Tree.specResult, hN]
  simp [List.insertionSort]

theorem specScored_congr {t₁ t₂ : Tree} (hn : t₁.nodes = t₂.nodes)
    (hd : t₁.dimensions = t₂.dimensions) (q : List ℚ) (eps tau : ℚ)
    (f : Option Filter) :
    t₁.specScored q eps tau f = t₂.specScored q eps tau f := by
  cases t₁ with
  | mk d₁ n₁ i₁ b₁ =>
    cases t₂ with
    | mk d₂ n₂ i₂ b₂ =>
      simp only at hn hd
      subst hn
      subst hd
      rfl

theorem specScored_nil (t : Tree) (q : List ℚ) (eps tau : ℚ)
    (f : Option Filter) (hN : t.nodes.length = 0) :
    t.specScored q eps tau f = [] := by
  rw [Tree.specScored, hN]
  rfl

theorem admittedScored_eq_spec (t : Tree) (q : List ℚ) (eps tau : ℚ)
    (f : Option Filter) (blocks : List (ℕ × ℕ)) (hgood : t.goodIndex)
    (hb : blocksCover t.dimensions blocks = true) :
    t.admittedScored q eps tau f blocks = t.specScored q eps tau f := by
  rw [Tree.admittedScored, Tree.specScored]
  congr 1
  refine List.filter_congr fun pos hpos => ?_
  rw [List.mem_range] at hpos
  have hiff := mergedHits_eq_dims_iff t q eps hb hgood hpos
  rw [Tree.specAdmits, Bool.eq_iff_iff]
  simp only [Bool.and_eq_true, decide_eq_true_eq]
  constructor
  · rintro ⟨h1, h2, h3⟩
    exact ⟨⟨hiff.mp h1, h2⟩, h3⟩
  · rintro ⟨⟨h1, h2⟩, h3⟩
    exact ⟨hiff.mpr h1, h2, h3⟩

theorem admittedScored_blocks (t : Tree) (q : List ℚ) (eps tau : ℚ)
    (f : Option Filter) (blocks : List (ℕ × ℕ))
    (hb : blocksCover t.dimensions blocks = true) :
    t.admittedScored q eps tau f blocks =
      t.admittedScored q eps tau f [(0, t.dimensions)] := by
  have hb1 : blocksCover t.dimensions [(0, t.dimensions)] = true := by
    simp [blocksCover, blocksCoverAux]
  rw [Tree.admittedScored, Tree.admittedScored]
  congr 1
  refine List.filter_congr fun pos hpos => ?_
  have h1 := mergedHits_cover t q eps hb pos
  have h2 := mergedHits_cover t q eps hb1 pos
  rw [Bool.eq_iff_iff]
  simp only [decide_eq_true_eq]
  rw [h1, h2]

theorem searchWithFilterSt_eq (t : Tree) (q : List ℚ) (eps tau : ℚ) (k : ℕ)
    (f : Option Filter) (blocks : List (ℕ × ℕ))
    (hq : q.length = t.dimensions) (hvalid : t.validIndexState)
    (hb : blocksCover t.dimensions blocks = true) :
    t.searchWithFilterSt q eps tau k f blocks =
      (Except.ok (t.specResult q eps tau k f),
        if t.nodes.length = 0 then t else t.ensureIndex) := by
  rw [Tree.searchWithFilterSt, if_neg (by simp [hq])]
  by_cases hN : t.nodes.length = 0
  · rw [if_pos hN, if_pos hN, specResult_nil t q eps tau k f hN]
  · rw [if_neg hN, if_neg hN]
    have hgood : t.ensureIndex.goodIndex := ensureIndex_goodIndex t hvalid
    have hn' : t.ensureIndex.nodes = t.nodes := ensureIndex_nodes t
    have hd' : t.ensureIndex.dimensions = t.dimensions := ensureIndex_dimensions t
    rw [← specResult_congr hn' hd' q eps tau k f]
    refine Prod.ext ?_ rfl
    simp only
    congr 1
    have hb' : blocksCover t.ensureIndex.dimensions blocks = true := by
      rw [hd']; exact hb
    have hAS : t.ensureIndex.admittedScored q eps tau f blocks =
        t.ensureIndex.specScored q eps tau f :=
      admittedScored_eq_spec t.ensureIndex q eps tau f blocks hgood hb'
    rw [hAS, Tree.specScored, Tree.selectTopK, Tree.specResult]
    have hpw : (((List.range t.ensureIndex.nodes.length).filter
        (t.ensureIndex.specAdmits q eps tau f)).map
          fun pos => (pos, t.ensureIndex.sumSq q pos)).Pairwise
            fun a b => a.1 < b.1 := by
      rw [List.pairwise_map]
      exact ((List.pairwise_lt_range _).filter _).imp fun hab => hab
    rw [insertionSort_snd_eq_lex _ hpw]

theorem searchWithFilter_eq (t : Tree) (q : List ℚ) (eps tau : ℚ) (k : ℕ)
    (f : Option Filter) (blocks : List (ℕ × ℕ))
    (hq : q.length = t.dimensions) (hvalid : t.validIndexState)
    (hb : blocksCover t.dimensions blocks = true) :
    t.searchWithFilter q eps tau k f blocks =
      Except.ok (t.specResult q eps tau k f) := by
  rw [Tree.searchWithFilter, searchWithFilterSt_eq t q eps tau k f blocks hq hvalid hb]

/-! ## The nondeterministic search relation -/

theorem searchWithFilterSt_isOutcome (t : Tree) (q : List ℚ) (eps tau : ℚ)
    (k : ℕ) (f : Option Filter) (blocks : List (ℕ × ℕ)) :
    t.searchOutcome q eps tau k f blocks
      (t.searchWithFilterSt q eps tau k f blocks) := by
  rw [Tree.searchOutcome, Tree.searchWithFilterSt]
  by_cases hq : q.length ≠ t.dimensions
  · rw [if_pos hq]
    exact Or.inl ⟨hq, rfl⟩
  · rw [if_neg hq]
    push_neg at hq
    by_cases hN : t.nodes.length = 0
    · rw [if_pos hN]
      exact Or.inr (Or.inl ⟨hq, hN, rfl⟩)
    · rw [if_neg hN]
      refine Or.inr (Or.inr ⟨hq, hN, t.ensureIndex, ensureIndex_isOutcome t,
        List.insertionSort (fun a b : ℕ × ℚ => a.2 ≤ b.2)
          (t.ensureIndex.admittedScored q eps tau f blocks),
        List.perm_insertionSort _ _, ?_, rfl⟩)
      haveI : IsTotal (ℕ × ℚ) (fun a b : ℕ × ℚ => a.2 ≤ b.2) :=
        ⟨fun a b => le_total a.2 b.2⟩
      haveI : IsTrans (ℕ × ℚ) (fun a b : ℕ × ℚ => a.2 ≤ b.2) :=
        ⟨fun a b c hab hbc => le_trans hab hbc⟩
      exact List.sorted_insertionSort _ _

theorem searchOutcome_result_iff (t : Tree) (q : List ℚ) (eps tau : ℚ)
    (k : ℕ) (f : Option Filter) (blocks : List (ℕ × ℕ))
    (r : Except String (List Node))
    (hq : q.length = t.dimensions) (hvalid : t.validIndexState)
    (hb : blocksCover t.dimensions blocks = true) :
    (∃ t2, t.searchOutcome q eps tau k f blocks (r, t2)) ↔
      ∃ res : List (ℕ × ℚ), res.Perm (t.specScored q eps tau f) ∧
        res.Pairwise (fun a b : ℕ × ℚ => a.2 ≤ b.2) ∧
        r = Except.ok ((res.take k).map fun p => t.nodes.getD p.1 default) := by
  constructor
  · rintro ⟨t2, h⟩
    rw [Tree.searchOutcome] at h
    rcases h with ⟨hne, -⟩ | ⟨-, hN, hout⟩ |
      ⟨-, -, t1, hens, res, hperm, hsort, hout⟩
    · exact absurd hq hne
    · have hr : r = Except.ok [] := congrArg Prod.fst hout
      refine ⟨[], ?_, List.Pairwise.nil, ?_⟩
      · rw [specScored_nil t q eps tau f hN]
      · rw [hr]
        simp
    · have hn1 : t1.nodes = t.nodes := ensureOutcome_nodes hens
      have hd1 : t1.dimensions = t.dimensions := ensureOutcome_dimensions hens
      have hg1 : t1.goodIndex := ensureOutcome_goodIndex hvalid hens
      have hAS : t1.admittedScored q eps tau f blocks =
          t.specScored q eps tau f := by
        rw [admittedScored_eq_spec t1 q eps tau f blocks hg1
          (by rw [hd1]; exact hb), specScored_congr hn1 hd1]
      refine ⟨res, hAS ▸ hperm, hsort, ?_⟩
      have hr : r = Except.ok ((res.take k).map fun p =>
          t1.nodes.getD p.1 default) := congrArg Prod.fst hout
      rw [hr]
      simp only [hn1]
  · rintro ⟨res, hperm, hsort, rfl⟩
    by_cases hN : t.nodes.length = 0
    · rw [specScored_nil t q eps tau f hN] at hperm
      have hres : res = [] := hperm.eq_nil
      subst hres
      exact ⟨t, Or.inr (Or.inl ⟨hq, hN, by simp⟩)⟩
    · refine ⟨t.ensureIndex, Or.inr (Or.inr ⟨hq, hN, t.ensureIndex,
        ensureIndex_isOutcome t, res, ?_, hsort, ?_⟩)⟩
      · rw [admittedScored_eq_spec t.ensureIndex q eps tau f blocks
          (ensureIndex_goodIndex t hvalid)
          (by rw [ensureIndex_dimensions]; exact hb),
          specScored_congr (ensureIndex_nodes t) (ensureIndex_dimensions t)]
        exact hperm
      · simp only [ensureIndex_nodes]

/-! ## Bridging the squared comparison with the real square root -/

theorem sumSq_nonneg (t : Tree) (q : List ℚ) (pos : ℕ) : 0 ≤ t.sumSq q pos := by
  rw [Tree.sumSq]
  refine List.sum_nonneg fun x hx => ?_
  obtain ⟨d, _, rfl⟩ := List.mem_map.mp hx
  positivity

theorem sqrt_le_bound_iff {D : ℕ} (hD : 0 < D) (eps tau s : ℚ) (hs : 0 ≤ s) :
    (Real.sqrt (s : ℝ) ≤ (eps : ℝ) * Real.sqrt (D : ℝ) * (1 - (tau : ℝ))) ↔
      distanceOk D eps tau s = true := by
  rw [distanceOk, Bool.and_eq_true, decide_eq_true_eq, decide_eq_true_eq]
  have hsR : (0 : ℝ) ≤ (s : ℝ) := by exact_mod_cast hs
  have hDR : (0 : ℝ) < Real.sqrt (D : ℝ) :=
    Real.sqrt_pos.mpr (by exact_mod_cast hD)
  have hbound : (eps : ℝ) * Real.sqrt (D : ℝ) * (1 - (tau : ℝ)) =
      ((eps : ℝ) * (1 - (tau : ℝ))) * Real.sqrt (D : ℝ) := by ring
  constructor
  · intro h
    have hE : 0 ≤ (eps : ℝ) * (1 - (tau : ℝ)) := by
      by_contra hcon
      push_neg at hcon
      have : (eps : ℝ) * Real.sqrt (D : ℝ) * (1 - (tau : ℝ)) < 0 := by
        rw [hbound]
        exact mul_neg_of_neg_of_pos hcon hDR
      exact absurd (lt_of_le_of_lt h this) (not_lt.mpr (Real.sqrt_nonneg _))
    constructor
    · exact_mod_cast hE
    · have h2 : (s : ℝ) ≤ ((eps : ℝ) * Real.sqrt (D : ℝ) * (1 - (tau : ℝ))) ^ 2 := by
        calc (s : ℝ) = Real.sqrt (s : ℝ) ^ 2 := (Real.sq_sqrt hsR).symm
        _ ≤ ((eps : ℝ) * Real.sqrt (D : ℝ) * (1 - (tau : ℝ))) ^ 2 := by
            refine pow_le_pow_left₀ (Real.sqrt_nonneg _) h 2
      have hsq : ((eps : ℝ) * Real.sqrt (D : ℝ) * (1 - (tau : ℝ))) ^ 2 =
          (eps : ℝ) ^ 2 * (D : ℝ) * (1 - (tau : ℝ)) ^ 2 := by
        have : Real.sqrt (D : ℝ) ^ 2 = (D : ℝ) :=
          Real.sq_sqrt (by positivity)
        calc ((eps : ℝ) * Real.sqrt (D : ℝ) * (1 - (tau : ℝ))) ^ 2 =
            (eps : ℝ) ^ 2 * Real.sqrt (D : ℝ) ^ 2 * (1 - (tau : ℝ)) ^ 2 := by ring
        _ = (eps : ℝ) ^ 2 * (D : ℝ) * (1 - (tau : ℝ)) ^ 2 := by rw [this]
      rw [hsq] at h2
      exact_mod_cast h2
  · rintro ⟨h1, h2⟩
    have h1R : 0 ≤ (eps : ℝ) * (1 - (tau : ℝ)) := by exact_mod_cast h1
    have h2R : (s : ℝ) ≤ (eps : ℝ) ^ 2 * (D : ℝ) * (1 - (tau : ℝ)) ^ 2 := by
      exact_mod_cast h2
    calc Real.sqrt (s : ℝ) ≤
        Real.sqrt ((eps : ℝ) ^ 2 * (D : ℝ) * (1 - (tau : ℝ)) ^ 2) :=
          Real.sqrt_le_sqrt h2R
    _ = Real.sqrt (((eps : ℝ) * (1 - (tau : ℝ))) ^ 2 * (D : ℝ)) := by ring_nf
    _ = ((eps : ℝ) * (1 - (tau : ℝ))) * Real.sqrt (D : ℝ) := by
        rw [Real.sqrt_mul (sq_nonneg _), Real.sqrt_sq h1R]
    _ = (eps : ℝ) * Real.sqrt (D : ℝ) * (1 - (tau : ℝ)) := by ring

/-! ## Evaluating the tied-distance scenarios

ℚ arithmetic is not kernel-reducible (`Rat` normalisation), so the
concrete admitted lists of the tie collections are computed by
`norm_num` rather than by `decide`. -/

theorem tie_nodeKey (pos : ℕ) : tieTree.nodeKey pos 0 = 0 := by
  rcases pos with _ | _ | p
  · rfl
  · rfl
  · rfl

theorem tie_sumSq (pos : ℕ) : tieTree.sumSq [0] pos = 0 := by
  rw [Tree.sumSq, show List.range tieTree.dimensions = [0] from rfl]
  norm_num [tie_nodeKey pos]

theorem tie_specAdmits (pos : ℕ) :
    tieTree.specAdmits [0] 0 0 none pos = true := by
  rw [Tree.specAdmits]
  simp only [Bool.and_eq_true, decide_eq_true_eq]
  refine ⟨⟨?_, ?_⟩, ?_⟩
  · intro d hd
    have hd1 : tieTree.dimensions = 1 := rfl
    rw [hd1] at hd
    have hd0 : d = 0 := by omega
    subst hd0
    rw [tie_nodeKey pos]
    norm_num
  · rfl
  · rw [tie_sumSq pos, distanceOk]
    norm_num [show tieTree.dimensions = 1 from rfl]

theorem tie_specScored : tieTree.specScored [0] 0 0 none = [(0, 0), (1, 0)] := by
  rw [Tree.specScored, show List.range tieTree.nodes.length = [0, 1] from rfl,
    List.filter_cons, List.filter_cons, List.filter_nil,
    tie_specAdmits 0, tie_specAdmits 1]
  simp [tie_sumSq 0, tie_sumSq 1]

theorem tie_admittedScored (blocks : List (ℕ × ℕ))
    (hb : blocksCover tieTree.dimensions blocks = true) :
    tieTree.admittedScored [0] 0 0 none blocks = [(0, 0), (1, 0)] := by
  rw [admittedScored_eq_spec tieTree [0] 0 0 none blocks (by decide) hb,
    tie_specScored]

theorem tieLoaded_admittedScored (blocks : List (ℕ × ℕ))
    (hb : blocksCover tieLoaded.dimensions blocks = true) :
    tieLoaded.admittedScored [0] 0 0 none blocks = [(0, 0), (1, 0)] := by
  rw [admittedScored_eq_spec tieLoaded [0] 0 0 none blocks (by decide) hb,
    specScored_congr (show tieLoaded.nodes = tieTree.nodes from rfl)
      (show tieLoaded.dimensions = tieTree.dimensions from rfl) [0] 0 0 none,
    tie_specScored]

theorem tie_specResult :
    tieTree.specResult [0] 0 0 2 none = [tieNodeA, tieNodeB] := by
  rw [Tree.specResult,
    show (((List.range tieTree.nodes.length).filter
        (tieTree.specAdmits [0] 0 0 none)).map
      fun pos => (pos, tieTree.sumSq [0] pos)) =
        tieTree.specScored [0] 0 0 none from rfl,
    tie_specScored]
  have hsorted : List.Sorted lexLe [((0 : ℕ), (0 : ℚ)), (1, 0)] := by
    refine List.sorted_cons.mpr ⟨?_, List.sorted_singleton _⟩
    intro b hb
    rw [List.mem_singleton] at hb
    subst hb
    exact Or.inr ⟨rfl, by norm_num⟩
  rw [hsorted.insertionSort_eq]
  rfl

theorem tie2_nodeKey (pos d : ℕ) : tie2Tree.nodeKey pos d = 0 := by
  rcases pos with _ | _ | p <;> rcases d with _ | _ | d' <;> rfl

theorem tie2_sumSq (pos : ℕ) : tie2Tree.sumSq [0, 0] pos = 0 := by
  rw [Tree.sumSq, show List.range tie2Tree.dimensions = [0, 1] from rfl]
  norm_num [tie2_nodeKey pos]

theorem tie2_specAdmits (pos : ℕ) :
    tie2Tree.specAdmits [0, 0] 0 0 none pos = true := by
  rw [Tree.specAdmits]
  simp only [Bool.and_eq_true, decide_eq_true_eq]
  refine ⟨⟨?_, ?_⟩, ?_⟩
  · intro d hd
    have hd1 : tie2Tree.dimensions = 2 := rfl
    rw [hd1] at hd
    have hd0 : d = 0 ∨ d = 1 := by omega
    rcases hd0 with rfl | rfl <;>
      · rw [tie2_nodeKey pos]
        norm_num
  · rfl
  · rw [tie2_sumSq pos, distanceOk]
    norm_num [show tie2Tree.dimensions = 2 from rfl]

theorem tie2_specScored :
    tie2Tree.specScored [0, 0] 0 0 none = [(0, 0), (1, 0)] := by
  rw [Tree.specScored, show List.range tie2Tree.nodes.length = [0, 1] from rfl,
    List.filter_cons, List.filter_cons, List.filter_nil,
    tie2_specAdmits 0, tie2_specAdmits 1]
  simp [tie2_sumSq 0, tie2_sumSq 1]

theorem tie2_admittedScored (blocks : List (ℕ × ℕ))
    (hb : blocksCover tie2Tree.dimensions blocks = true) :
    tie2Tree.admittedScored [0, 0] 0 0 none blocks = [(0, 0), (1, 0)] := by
  rw [admittedScored_eq_spec tie2Tree [0, 0] 0 0 none blocks (by decide) hb,
    tie2_specScored]

/-! ## Claim C1 — exact recall, ordering and truncation of search -/

/-- C1 (corrected: the tie-order conjunct): on a collection with an
up-to-date index, for every query (q, ε ≥ 0, τ ∈ [0,1], top-k ≥ 1,
optional filter) and every contiguous worker partition, a list is a
possible `SearchWithFilter` result exactly when it is the first top-k of
some distance-sorted permutation of exactly the admitted candidates —
the nodes within ε of the query in every dimension, within true
Euclidean distance `ε·sqrt(D)·(1−τ)`, and matching the filter
(`Tree.specAdmits`, whose distance condition is shown in its `Real.sqrt`
form).  The order of equal-distance results is *not* determined by the
program (randomised map enumeration, unstable `sort.Slice`); the frozen
claim's position tie-break is refuted by `c1_counterexample`. -/
theorem c1_search_exact_recall (t : Tree) (q : List ℚ) (eps tau : ℚ) (k : ℕ)
    (f : Option Filter) (blocks : List (ℕ × ℕ))
    (hq : q.length = t.dimensions) (hD : 0 < t.dimensions)
    (heps : 0 ≤ eps) (htau0 : 0 ≤ tau) (htau1 : tau ≤ 1) (hk : 1 ≤ k)
    (hclean : t.indexDirty = false) (hgood : t.goodIndex)
    (hb : blocksCover t.dimensions blocks = true) :
    (∀ r : List Node,
      (∃ t2, t.searchOutcome q eps tau k f blocks (Except.ok r, t2)) ↔
        (∃ res : List (ℕ × ℚ), res.Perm (t.specScored q eps tau f) ∧
          res.Pairwise (fun a b : ℕ × ℚ => a.2 ≤ b.2) ∧
          r = (res.take k).map fun p => t.nodes.getD p.1 default)) ∧
    ∀ pos < t.nodes.length,
      (t.specAdmits q eps tau f pos = true ↔
        ((∀ d < t.dimensions, |q.getD d 0 - t.nodeKey pos d| ≤ eps) ∧
          (t.nodes.getD pos default).matchesFilter f = true ∧
          Real.sqrt ((t.sumSq q pos : ℚ) : ℝ) ≤
            (eps : ℝ) * Real.sqrt ((t.dimensions : ℕ) : ℝ) * (1 - (tau : ℝ)))) := by
  constructor
  · intro r
    rw [searchOutcome_result_iff t q eps tau k f blocks (Except.ok r) hq
      (Or.inr (Or.inr (Or.inr hgood))) hb]
    constructor
    · rintro ⟨res, h1, h2, h3⟩
      exact ⟨res, h1, h2, Except.ok.inj h3⟩
    · rintro ⟨res, h1, h2, rfl⟩
      exact ⟨res, h1, h2, rfl⟩
  · intro pos hpos
    rw [Tree.specAdmits]
    simp only [Bool.and_eq_true, decide_eq_true_eq]
    rw [← sqrt_le_bound_iff hD eps tau (t.sumSq q pos) (sumSq_nonneg t q pos)]
    constructor
    · rintro ⟨⟨h1, h2⟩, h3⟩
      exact ⟨h1, h2, h3⟩
    · rintro ⟨h1, h2, h3⟩
      exact ⟨⟨h1, h2⟩, h3⟩

/-- C1 (counterexample to the frozen tie-order conjunct): on a clean,
correctly indexed 1-D collection with two nodes at the same key, the
reversed sequence `[tieNodeB, tieNodeA]` is a possible `SearchWithFilter`
result — a distance-sorted order of the tied candidates that Go's
randomised map enumeration and unstable `sort.Slice` may produce — yet
the frozen claim's description (ties broken by insertion position
ascending, `Tree.specResult`) is the different sequence
`[tieNodeA, tieNodeB]`. -/
theorem c1_counterexample :
    (tieTree.indexDirty = false ∧ tieTree.goodIndex ∧
      blocksCover tieTree.dimensions [(0, 1)] = true) ∧
    tieTree.searchOutcome [0] 0 0 2 none [(0, 1)]
      (Except.ok [tieNodeB, tieNodeA], tieTree) ∧
    tieTree.specResult [0] 0 0 2 none = [tieNodeA, tieNodeB] ∧
    [tieNodeB, tieNodeA] ≠ [tieNodeA, tieNodeB] := by
  refine ⟨⟨by decide, by decide, by decide⟩, ?_, tie_specResult, by decide⟩
  rw [Tree.searchOutcome]
  refine Or.inr (Or.inr ⟨by decide, by decide, tieTree, by decide,
    [(1, 0), (0, 0)], ?_, by decide, rfl⟩)
  rw [tie_admittedScored [(0, 1)] (by decide)]
  decide

/-! ## Claim C4 — parallel scan equivalent to the sequential reference -/

/-- C4 (corrected: the ordered-result conjunct): for every partition of
`[0, D)` into contiguous worker blocks, the per-worker local hit counters
merged by addition equal the single-worker sequential counters at every
position, and consequently the parallel pass admits exactly the same set
of possible search results and post-states as the sequential execution
(the single block `(0, D)`).  The *ordered* result of one particular run
is nevertheless not determined when distances tie (randomised map
enumeration, unstable `sort.Slice`; see `c4_counterexample`), so run-wise
identity of the sequences is not guaranteed. -/
theorem c4_parallel_equivalence (t : Tree) (q : List ℚ) (eps tau : ℚ) (k : ℕ)
    (f : Option Filter) (blocks : List (ℕ × ℕ))
    (hb : blocksCover t.dimensions blocks = true) :
    (∀ pos, t.mergedHits q eps blocks pos =
      t.localHits q eps 0 t.dimensions pos) ∧
    ∀ out, t.searchOutcome q eps tau k f blocks out ↔
      t.searchOutcome q eps tau k f [(0, t.dimensions)] out := by
  refine ⟨mergedHits_cover t q eps hb, fun out => ?_⟩
  rw [Tree.searchOutcome, Tree.searchOutcome]
  have key : ∀ t1, t.ensureOutcome t1 →
      t1.admittedScored q eps tau f blocks =
        t1.admittedScored q eps tau f [(0, t.dimensions)] := by
    intro t1 hens
    have hd1 : t1.dimensions = t.dimensions := ensureOutcome_dimensions hens
    have hb' : blocksCover t1.dimensions blocks = true := by
      rw [hd1]; exact hb
    rw [admittedScored_blocks t1 q eps tau f blocks hb', hd1]
  constructor
  · rintro (h | h | ⟨h1, h2, t1, hens, res, hperm, hsort, hout⟩)
    · exact Or.inl h
    · exact Or.inr (Or.inl h)
    · refine Or.inr (Or.inr ⟨h1, h2, t1, hens, res, ?_, hsort, hout⟩)
      rw [← key t1 hens]
      exact hperm
  · rintro (h | h | ⟨h1, h2, t1, hens, res, hperm, hsort, hout⟩)
    · exact Or.inl h
    · exact Or.inr (Or.inl h)
    · refine Or.inr (Or.inr ⟨h1, h2, t1, hens, res, ?_, hsort, hout⟩)
      rw [key t1 hens]
      exact hperm

/-- C4 (counterexample to run-wise ordered-result identity): on a clean,
correctly indexed 2-D collection with two nodes at the same key, the
two-block parallel partition can return `[tie2NodeB, tie2NodeA]` while
the single-worker sequential execution can return
`[tie2NodeA, tie2NodeB]` for the same arguments — the tied distance
leaves the order to the randomised map enumeration and the unstable
`sort.Slice`. -/
theorem c4_counterexample :
    blocksCover tie2Tree.dimensions [(0, 1), (1, 2)] = true ∧
    blocksCover tie2Tree.dimensions [(0, 2)] = true ∧
    tie2Tree.searchOutcome [0, 0] 0 0 2 none [(0, 1), (1, 2)]
      (Except.ok [tie2NodeB, tie2NodeA], tie2Tree) ∧
    tie2Tree.searchOutcome [0, 0] 0 0 2 none [(0, 2)]
      (Except.ok [tie2NodeA, tie2NodeB], tie2Tree) ∧
    [tie2NodeB, tie2NodeA] ≠ [tie2NodeA, tie2NodeB] := by
  refine ⟨by decide, by decide, ?_, ?_, by decide⟩
  · rw [Tree.searchOutcome]
    refine Or.inr (Or.inr ⟨by decide, by decide, tie2Tree, by decide,
      [(1, 0), (0, 0)], ?_, by decide, rfl⟩)
    rw [tie2_admittedScored [(0, 1), (1, 2)] (by decide)]
    decide
  · rw [Tree.searchOutcome]
    refine Or.inr (Or.inr ⟨by decide, by decide, tie2Tree, by decide,
      [(0, 0), (1, 0)], ?_, by decide, rfl⟩)
    rw [tie2_admittedScored [(0, 2)] (by decide)]

/-! ## Claim C10 — search mutates only the index and the dirty flag -/

/-- C10: `SearchWithFilter` leaves the node sequence, the dimension count,
and every stored node unchanged; the post-state differs from the pre-state
at most in `index` and `indexDirty`, and when it differs at all the index
has been rebuilt (dirty flag cleared) before the scan. -/
theorem c10_search_frame (t : Tree) (q : List ℚ) (eps tau : ℚ) (k : ℕ)
    (f : Option Filter) (blocks : List (ℕ × ℕ)) :
    (t.searchWithFilterSt q eps tau k f blocks).2.nodes = t.nodes ∧
    (t.searchWithFilterSt q eps tau k f blocks).2.dimensions = t.dimensions ∧
    (∃ ix dirty, (t.searchWithFilterSt q eps tau k f blocks).2 =
      { t with index := ix, indexDirty := dirty }) ∧
    ((t.searchWithFilterSt q eps tau k f blocks).2.indexDirty = false ∨
      (t.searchWithFilterSt q eps tau k f blocks).2 = t) := by
  rw [Tree.searchWithFilterSt]
  split
  · exact ⟨rfl, rfl, ⟨t.index, t.indexDirty, rfl⟩, Or.inr rfl⟩
  · split
    · exact ⟨rfl, rfl, ⟨t.index, t.indexDirty, rfl⟩, Or.inr rfl⟩
    · simp only
      refine ⟨ensureIndex_nodes t, ensureIndex_dimensions t, ?_, ?_⟩
      · rw [Tree.ensureIndex]
        split
        · exact ⟨t.rebuildIndex.index, false, rfl⟩
        · exact ⟨t.index, t.indexDirty, rfl⟩
      · rw [Tree.ensureIndex]
        split
        · exact Or.inl rfl
        · exact Or.inr rfl

/-! ## Claim C3 — persistence round-trip -/

/-- C3 (corrected: the identical-result-sequence conjunct): saving a
collection and loading it back from the same bytes yields a collection
with exactly the same node sequence (positions, keys, values, metadata,
timestamps) and the same dimension count, and for identical search
arguments (any query, radius, threshold, top-k, filter, and worker
partition) the loaded collection admits exactly the same possible
results as the original.  The particular sequence of one run is not
determined when distances tie (randomised map enumeration, unstable
`sort.Slice`; see `c3_counterexample`), so run-wise identity of the
result sequences across the round-trip is not guaranteed. -/
theorem c3_save_load_roundtrip {c : Codec} (hc : c.Wf) (t : Tree)
    (hwf : t.saveWf) (hvalid : t.validIndexState) :
    ∃ t', fileLoad c (fileSave c t) = some t' ∧
      t'.nodes = t.nodes ∧ t'.dimensions = t.dimensions ∧
      ∀ q eps tau k f blocks, blocksCover t.dimensions blocks = true →
        ∀ r : Except String (List Node),
          (∃ t2, t'.searchOutcome q eps tau k f blocks (r, t2)) ↔
            (∃ t2, t.searchOutcome q eps tau k f blocks (r, t2)) := by
  refine ⟨_, fileLoad_fileSave hc t hwf, rfl, rfl, ?_⟩
  intro q eps tau k f blocks hb r
  set t' := Tree.rebuildIndex
    { dimensions := t.dimensions, nodes := t.nodes,
      index := List.replicate t.dimensions [], indexDirty := false } with ht'
  have hn' : t'.nodes = t.nodes := rfl
  have hd' : t'.dimensions = t.dimensions := rfl
  by_cases hq : q.length = t.dimensions
  · have hv' : t'.validIndexState :=
      Or.inr (Or.inr (Or.inr (rebuildIndex_goodIndex _)))
    rw [searchOutcome_result_iff t' q eps tau k f blocks r
        (by rw [hd']; exact hq) hv' (by rw [hd']; exact hb),
      searchOutcome_result_iff t q eps tau k f blocks r hq hvalid hb,
      specScored_congr hn' hd' q eps tau f]
    simp only [hn']
  · constructor
    · rintro ⟨t2, h⟩
      rw [Tree.searchOutcome] at h
      rcases h with ⟨-, hout⟩ | ⟨hq', -⟩ | ⟨hq', -⟩
      · have hr : r = Except.error ("dimension mismatch") :=
          congrArg Prod.fst hout
        exact ⟨t, Or.inl ⟨hq, by rw [hr]⟩⟩
      · exact absurd (hd' ▸ hq') hq
      · exact absurd (hd' ▸ hq') hq
    · rintro ⟨t2, h⟩
      rw [Tree.searchOutcome] at h
      rcases h with ⟨-, hout⟩ | ⟨hq', -⟩ | ⟨hq', -⟩
      · have hr : r = Except.error ("dimension mismatch") :=
          congrArg Prod.fst hout
        exact ⟨t', Or.inl ⟨by rw [hd']; exact hq, by rw [hr]⟩⟩
      · exact absurd hq' hq
      · exact absurd hq' hq

/-! ## Claim C2 — batch insert -/

/-- C2 (corrected: the `(key[d], position)` tie-break): `BatchInsert`
validates every item's dimension before any mutation; on an invalid item
every possible outcome is an error with the collection unchanged; on
success every possible outcome reports no error, appends exactly
`len(items)` nodes (the originals followed by the items in order), is a
single rebuild of the appended collection (no per-item splicing), and
leaves every `index[d]` a permutation of `0..N−1` sorted by `key[d]`.
Equal keys land in unspecified order (`sort.Slice` is not stable; the
frozen position tie-break is refuted by `c2_counterexample`), and the
deterministic `Tree.batchInsert` is one possible outcome. -/
theorem c2_batch_insert (t : Tree) (items : List BatchItem) (now : ℤ) :
    t.batchOutcome items now (t.batchInsert items now) ∧
    ((∃ it ∈ items, it.key.length ≠ t.dimensions) →
      ∀ out, t.batchOutcome items now out →
        out.1.isSome = true ∧ out.2 = t) ∧
    ((∀ it ∈ items, it.key.length = t.dimensions) →
      ∀ out, t.batchOutcome items now out →
        out.1 = none ∧
        out.2.nodes = t.nodes ++
          items.map (fun it => ⟨it.key, it.value, it.metadata, now⟩) ∧
        out.2.nodes.length = t.nodes.length + items.length ∧
        Tree.rebuildOutcome (t.appendBatch items now) out.2 ∧
        ∀ d < t.dimensions,
          (out.2.index.getD d []).Perm
            (List.range (t.nodes.length + items.length)) ∧
          (out.2.index.getD d []).Pairwise fun i j =>
            out.2.nodeKey i d ≤ out.2.nodeKey j d) := by
  refine ⟨?_, ?_, ?_⟩
  · rw [Tree.batchOutcome]
    by_cases hall : ∀ it ∈ items, it.key.length = t.dimensions
    · have hcond : (items.all fun it =>
          decide (it.key.length = t.dimensions)) = true := by
        rw [List.all_eq_true]
        intro it hit
        exact decide_eq_true (hall it hit)
      have hbi : t.batchInsert items now =
          (none, Tree.rebuildIndex (t.appendBatch items now)) := by
        rw [Tree.batchInsert, if_pos hcond]
        rfl
      rw [hbi]
      exact Or.inl ⟨hall, rfl, rebuildIndex_isOutcome (t.appendBatch items now)⟩
    · push_neg at hall
      obtain ⟨it, hit, hne⟩ := hall
      rw [Tree.batchInsert, if_neg (by simp; exact ⟨it, hit, hne⟩)]
      exact Or.inr ⟨⟨it, hit, hne⟩, rfl⟩
  · rintro ⟨it, hit, hne⟩ out hout
    rw [Tree.batchOutcome] at hout
    rcases hout with ⟨hall, -⟩ | ⟨-, rfl⟩
    · exact absurd (hall it hit) hne
    · exact ⟨rfl, rfl⟩
  · intro hall out hout
    rw [Tree.batchOutcome] at hout
    rcases hout with ⟨-, h1, hro⟩ | ⟨⟨it, hit, hne⟩, -⟩
    · have hro' := hro
      rw [Tree.rebuildOutcome] at hro'
      obtain ⟨hn, hd, -, hg⟩ := hro'
      have hnodes : out.2.nodes = t.nodes ++
          items.map (fun it => ⟨it.key, it.value, it.metadata, now⟩) := hn
      have hN : out.2.nodes.length = t.nodes.length + items.length := by
        rw [hnodes]
        simp
      refine ⟨h1, hnodes, hN, hro, ?_⟩
      intro d hdlt
      have hd2 : d < out.2.dimensions := by
        rw [hd]
        exact hdlt
      obtain ⟨hpair, hperm⟩ := hg.2 d hd2
      rw [hN] at hperm
      exact ⟨hperm, hpair⟩
    · exact absurd (hall it hit) hne

/-- C2 (counterexample to the frozen `(key[d], position)` tie-break):
batch-inserting two items with the equal key `[1]` into an empty 1-D
collection can leave `index[0] = [1, 0]` — a key-sorted permutation that
the unstable `sort.Slice` may produce — which is not sorted by
`(key[0], position)`. -/
theorem c2_counterexample :
    (∀ it ∈ ([⟨[1], [0], none⟩, ⟨[1], [1], none⟩] : List BatchItem),
      it.key.length = batchTree.dimensions) ∧
    batchTree.batchOutcome [⟨[1], [0], none⟩, ⟨[1], [1], none⟩] 0
      (none, batchBad) ∧
    batchBad.index.getD 0 [] = [1, 0] ∧
    ¬ (batchBad.index.getD 0 []).Pairwise (fun i j =>
      batchBad.nodeKey i 0 < batchBad.nodeKey j 0 ∨
        (batchBad.nodeKey i 0 = batchBad.nodeKey j 0 ∧ i < j)) := by
  decide

/-! ## Claim C8 — incremental insert and the index invariant -/

theorem insert_splice_getD (t : Tree) (key : List ℚ) (value : List ℕ)
    (metadata : Option Md) (now : ℤ) {d : ℕ} (hd : d < t.dimensions)
    (hk : key.length = t.dimensions)
    (hsplice : 0 < (t.index.getD 0 []).length ∧ t.indexDirty = false) :
    ((t.insertWithMetadata key value metadata now).2.index.getD d []) =
      (t.index.getD d []).take
          ((t.index.getD d []).findIdx fun pos =>
            decide (key.getD d 0 ≤ t.nodeKey pos d)) ++
        [t.nodes.length] ++
        (t.index.getD d []).drop
          ((t.index.getD d []).findIdx fun pos =>
            decide (key.getD d 0 ≤ t.nodeKey pos d)) := by
  rw [Tree.insertWithMetadata, if_neg (by simp [hk])]
  simp only [hsplice.1, hsplice.2, and_self, if_pos, gt_iff_lt]
  rw [List.getD_eq_getElem?_getD, List.getElem?_map]
  simp [List.getElem?_range, hd]

/-- C8 (amended): on an indexed, non-dirty collection whose index is a
correct permutation sorted by key, a single insert through the incremental
splice appends the node and keeps every `index[d]` a permutation of
`0..N` sorted by `key[d]` — but ties are *not* broken by position
ascending (the new, largest position is spliced before existing equal
keys; see `c8_counterexample`). -/
theorem c8_insert_preserves_key_sorted (t : Tree) (key : List ℚ)
    (value : List ℕ) (metadata : Option Md) (now : ℤ)
    (hk : key.length = t.dimensions) (hD : 0 < t.dimensions)
    (hclean : t.indexDirty = false) (hgood : t.goodIndex)
    (hN : 0 < t.nodes.length) :
    (t.insertWithMetadata key value metadata now).1 = none ∧
    (t.insertWithMetadata key value metadata now).2.nodes =
      t.nodes ++ [⟨key, value, metadata, now⟩] ∧
    ∀ d < t.dimensions,
      ((t.insertWithMetadata key value metadata now).2.index.getD d []).Perm
        (List.range (t.nodes.length + 1)) ∧
      ((t.insertWithMetadata key value metadata now).2.index.getD d []).Pairwise
        fun i j =>
          (t.insertWithMetadata key value metadata now).2.nodeKey i d ≤
            (t.insertWithMetadata key value metadata now).2.nodeKey j d := by
  have hidx0 : 0 < (t.index.getD 0 []).length := by
    have hperm := (hgood.2 0 hD).2
    rw [hperm.length_eq, List.length_range]
    exact hN
  have herr : (t.insertWithMetadata key value metadata now).1 = none := by
    rw [Tree.insertWithMetadata, if_neg (by simp [hk])]
    rw [if_pos ⟨hidx0, hclean⟩]
  have hnodes : (t.insertWithMetadata key value metadata now).2.nodes =
      t.nodes ++ [⟨key, value, metadata, now⟩] := by
    rw [Tree.insertWithMetadata, if_neg (by simp [hk])]
    rw [if_pos ⟨hidx0, hclean⟩]
  refine ⟨herr, hnodes, ?_⟩
  intro d hd
  rw [insert_splice_getD t key value metadata now hd hk ⟨hidx0, hclean⟩]
  set idx := t.index.getD d [] with hidx
  set p := idx.findIdx fun pos => decide (key.getD d 0 ≤ t.nodeKey pos d) with hp
  have hsort := (hgood.2 d hd).1
  have hperm := (hgood.2 d hd).2
  have hkey' : ∀ pos < t.nodes.length,
      (t.insertWithMetadata key value metadata now).2.nodeKey pos d =
        t.nodeKey pos d := by
    intro pos hpos
    rw [Tree.nodeKey, Tree.nodeKey, hnodes]
    rw [List.getD_append _ _ _ _ hpos]
  have hkeyN : (t.insertWithMetadata key value metadata now).2.nodeKey
      t.nodes.length d = key.getD d 0 := by
    rw [Tree.nodeKey, hnodes]
    rw [List.getD_append_right _ _ _ _ (le_refl _)]
    simp
  have hmemidx : ∀ x ∈ idx, x < t.nodes.length := by
    intro x hx
    have := hperm.mem_iff.mp hx
    rwa [List.mem_range] at this
  constructor
  · have hassoc : idx.take p ++ [t.nodes.length] ++ idx.drop p =
        idx.take p ++ (t.nodes.length :: idx.drop p) := by simp
    rw [hassoc]
    refine List.Perm.trans List.perm_middle ?_
    rw [List.take_append_drop]
    refine List.Perm.trans (hperm.cons _) ?_
    rw [List.range_succ]
    exact (List.perm_append_singleton _ _).symm
  · have htake : ∀ x ∈ idx.take p, t.nodeKey x d < key.getD d 0 := by
      intro x hx
      obtain ⟨j, hj, hget⟩ := List.getElem_of_mem hx
      have hjp : j < p ∧ j < idx.length := by
        have := hj
        rw [List.length_take, lt_min_iff] at this
        exact this
      have hfalse : (fun pos => decide (key.getD d 0 ≤ t.nodeKey pos d))
          (idx.get ⟨j, hjp.2⟩) = false :=
        @List.not_of_lt_findIdx _ (fun pos =>
          decide (key.getD d 0 ≤ t.nodeKey pos d)) idx j hjp.1
      have hgx : idx.get ⟨j, hjp.2⟩ = x := by
        rw [← hget]
        simp [List.getElem_take]
      rw [hgx] at hfalse
      simp only [decide_eq_false_iff_not, not_le] at hfalse
      exact hfalse
    have hdrop : ∀ x ∈ idx.drop p, key.getD d 0 ≤ t.nodeKey x d := by
      intro x hx
      obtain ⟨j, hj, hget⟩ := List.getElem_of_mem hx
      have hjlen : p + j < idx.length := by
        have := hj
        rw [List.length_drop] at this
        omega
      have hplen : p < idx.length := by omega
      have hptrue : (fun pos => decide (key.getD d 0 ≤ t.nodeKey pos d))
          (idx.get ⟨p, hplen⟩) = true :=
        @List.findIdx_getElem _ (fun pos =>
          decide (key.getD d 0 ≤ t.nodeKey pos d)) idx hplen
      simp only [decide_eq_true_eq] at hptrue
      have hle := sorted_getElem_le (fun i => t.nodeKey i d) hsort
        (Nat.le_add_right p j) hjlen
      have hgx : idx.get ⟨p + j, hjlen⟩ = x := by
        rw [← hget]
        simp [List.getElem_drop]
      rw [hgx] at hle
      exact le_trans hptrue hle
    rw [List.pairwise_append]
    refine ⟨?_, ?_, ?_⟩
    · rw [List.pairwise_append]
      refine ⟨?_, List.pairwise_singleton _ _, ?_⟩
      · have := hsort.sublist (List.take_sublist p idx)
        refine this.imp_of_mem fun ha hb hab => ?_
        rw [hkey' _ (hmemidx _ ((List.take_sublist p idx).subset ha)),
          hkey' _ (hmemidx _ ((List.take_sublist p idx).subset hb))]
        exact hab
      · intro a ha b hb
        rw [List.mem_singleton] at hb
        subst hb
        rw [hkey' _ (hmemidx _ ((List.take_sublist p idx).subset ha)), hkeyN]
        exact le_of_lt (htake a ha)
    · have := hsort.sublist (List.drop_sublist p idx)
      refine this.imp_of_mem fun ha hb hab => ?_
      rw [hkey' _ (hmemidx _ ((List.drop_sublist p idx).subset ha)),
        hkey' _ (hmemidx _ ((List.drop_sublist p idx).subset hb))]
      exact hab
    · intro a ha b hb
      rcases List.mem_append.mp ha with ha' | ha'
      · rw [hkey' _ (hmemidx _ ((List.take_sublist p idx).subset ha')),
          hkey' _ (hmemidx _ ((List.drop_sublist p idx).subset hb))]
        exact le_trans (le_of_lt (htake a ha')) (hdrop b hb)
      · rw [List.mem_singleton] at ha'
        subst ha'
        rw [hkeyN, hkey' _ (hmemidx _ ((List.drop_sublist p idx).subset hb))]
        exact hdrop b hb

/-! ## Claim C5 — scalar quantisation error bound -/

theorem foldl_min_le (v : List ℚ) (a : ℚ) :
    v.foldl min a ≤ a ∧ ∀ x ∈ v, v.foldl min a ≤ x := by
  induction v generalizing a with
  | nil => exact ⟨le_refl a, by simp⟩
  | cons y ys ih =>
    obtain ⟨h1, h2⟩ := ih (min a y)
    refine ⟨le_trans h1 (min_le_left a y), ?_⟩
    intro x hx
    rcases List.mem_cons.mp hx with rfl | hx'
    · exact le_trans h1 (min_le_right a x)
    · exact h2 x hx'

theorem le_foldl_max (v : List ℚ) (a : ℚ) :
    a ≤ v.foldl max a ∧ ∀ x ∈ v, x ≤ v.foldl max a := by
  induction v generalizing a with
  | nil => exact ⟨le_refl a, by simp⟩
  | cons y ys ih =>
    obtain ⟨h1, h2⟩ := ih (max a y)
    refine ⟨le_trans (le_max_left a y) h1, ?_⟩
    intro x hx
    rcases List.mem_cons.mp hx with rfl | hx'
    · exact le_trans (le_max_right a x) h1
    · exact h2 x hx'

theorem vecMin_le {v : List ℚ} {x : ℚ} (hx : x ∈ v) : vecMin v ≤ x :=
  (foldl_min_le v (v.headD 0)).2 x hx

theorem le_vecMax {v : List ℚ} {x : ℚ} (hx : x ∈ v) : x ≤ vecMax v :=
  (le_foldl_max v (v.headD 0)).2 x hx

theorem vecMin_lt_vecMax {v : List ℚ} (h : ∃ x ∈ v, ∃ y ∈ v, x ≠ y) :
    vecMin v < vecMax v := by
  obtain ⟨x, hx, y, hy, hxy⟩ := h
  rcases lt_or_le (vecMin v) (vecMax v) with h' | h'
  · exact h'
  · exfalso
    have hxq : vecMin v ≤ x := vecMin_le hx
    have hyq : vecMin v ≤ y := vecMin_le hy
    have hxm : x ≤ vecMax v := le_vecMax hx
    have hym : y ≤ vecMax v := le_vecMax hy
    exact hxy (by linarith)

/-- Per-coordinate reconstruction map of quantise-then-dequantise. -/
theorem dequantize_quantize_map (v : List ℚ) (hv : v ≠ []) :
    (quantizeVector v).dequantize = v.map fun x =>
      vecMin v + ((round ((x - vecMin v) *
        (if vecMax v = vecMin v then 0 else 255 / (vecMax v - vecMin v)))).toNat : ℚ) *
          ((vecMax v - vecMin v) / 255) := by
  rw [quantizeVector, if_neg (by simpa using hv), QuantizedVector.dequantize]
  rw [if_neg (by simpa using hv)]
  simp only [List.map_map]
  rfl

theorem round_sub_sq_le (u : ℚ) (hu : 0 ≤ u) :
    (((round u).toNat : ℚ) - u) ^ 2 ≤ (1 / 2) ^ 2 := by
  have hr : 0 ≤ round u := by
    rw [round_eq]
    have : (0 : ℤ) ≤ ⌊u + 1 / 2⌋ := by
      rw [Int.le_floor]
      push_cast
      linarith
    exact this
  have htn : ((round u).toNat : ℚ) = ((round u : ℤ) : ℚ) := by
    exact_mod_cast congrArg (fun z : ℤ => (z : ℚ)) (Int.toNat_of_nonneg hr)
  rw [htn]
  have habs : |((round u : ℤ) : ℚ) - u| ≤ 1 / 2 := by
    have := abs_sub_round u
    rwa [abs_sub_comm] at this
  calc (((round u : ℤ) : ℚ) - u) ^ 2 = |((round u : ℤ) : ℚ) - u| ^ 2 := by
        rw [sq_abs]
  _ ≤ (1 / 2) ^ 2 := by
        refine pow_le_pow_left₀ (abs_nonneg _) habs 2

theorem zipWith_sq_map (g : ℚ → ℚ) (v : List ℚ) :
    List.zipWith (fun a b => (a - b) ^ 2) (v.map g) v =
      v.map fun x => (g x - x) ^ 2 := by
  induction v with
  | nil => rfl
  | cons x xs ih => simp [ih]

/-- C5: for a vector with non-constant entries, the root-mean-square
reconstruction error of quantise-then-dequantise is at most
`(max(v) − min(v)) / 510`. -/
theorem c5_quantization_error_bound (v : List ℚ)
    (h : ∃ x ∈ v, ∃ y ∈ v, x ≠ y) :
    Real.sqrt (((List.zipWith (fun a b => (a - b) ^ 2)
        ((quantizeVector v).dequantize) v).sum : ℚ) : ℝ) /
      Real.sqrt ((v.length : ℕ) : ℝ) ≤
    (((vecMax v - vecMin v) / 510 : ℚ) : ℝ) := by
  have hv : v ≠ [] := by
    obtain ⟨x, hx, _⟩ := h
    exact List.ne_nil_of_mem hx
  have hlt : vecMin v < vecMax v := vecMin_lt_vecMax h
  have hne : vecMax v - vecMin v ≠ 0 := by linarith
  have hBpos : 0 ≤ (vecMax v - vecMin v) / 510 :=
    div_nonneg (by linarith) (by norm_num)
  set B : ℚ := (vecMax v - vecMin v) / 510 with hB
  have hmap := dequantize_quantize_map v hv
  rw [hmap, zipWith_sq_map]
  set F : ℚ → ℚ := fun x =>
    ((vecMin v + ((round ((x - vecMin v) *
      (if vecMax v = vecMin v then 0 else 255 / (vecMax v - vecMin v)))).toNat : ℚ) *
        ((vecMax v - vecMin v) / 255)) - x) ^ 2 with hF
  have hbound : ∀ y ∈ v.map F, y ≤ B ^ 2 := by
    intro y hy
    obtain ⟨x, hx, rfl⟩ := List.mem_map.mp hy
    rw [hF]
    simp only
    rw [if_neg (fun hc => hne (by linarith))]
    set u : ℚ := (x - vecMin v) * (255 / (vecMax v - vecMin v)) with hu
    have hu0 : 0 ≤ u := by
      have h1 : 0 ≤ x - vecMin v := by
        have := vecMin_le hx
        linarith
      have h2 : 0 < 255 / (vecMax v - vecMin v) :=
        div_pos (by norm_num) (by linarith)
      exact mul_nonneg h1 (le_of_lt h2)
    have hexp : vecMin v + ((round u).toNat : ℚ) * ((vecMax v - vecMin v) / 255)
        - x = (((round u).toNat : ℚ) - u) * ((vecMax v - vecMin v) / 255) := by
      rw [hu]
      field_simp
      ring
    rw [hexp]
    have hsq := round_sub_sq_le u hu0
    calc ((((round u).toNat : ℚ) - u) * ((vecMax v - vecMin v) / 255)) ^ 2 =
        (((round u).toNat : ℚ) - u) ^ 2 * ((vecMax v - vecMin v) / 255) ^ 2 := by
          ring
    _ ≤ (1 / 2) ^ 2 * ((vecMax v - vecMin v) / 255) ^ 2 :=
          mul_le_mul_of_nonneg_right hsq (by positivity)
    _ = B ^ 2 := by rw [hB]; ring
  have hsum : (v.map F).sum ≤ (v.length : ℚ) * B ^ 2 := by
    have := List.sum_le_card_nsmul _ _ hbound
    rwa [List.length_map, nsmul_eq_mul] at this
  have hL1 : 1 ≤ v.length := by
    cases v with
    | nil => exact absurd rfl hv
    | cons a l => simp
  have hLpos : (0 : ℝ) < Real.sqrt ((v.length : ℕ) : ℝ) := by
    refine Real.sqrt_pos.mpr ?_
    exact_mod_cast hL1
  rw [div_le_iff hLpos]
  have hcast : (((v.map F).sum : ℚ) : ℝ) ≤
      ((v.length : ℕ) : ℝ) * ((B : ℚ) : ℝ) ^ 2 := by
    have h2 : ((((v.length : ℚ) * B ^ 2) : ℚ) : ℝ) =
        ((v.length : ℕ) : ℝ) * ((B : ℚ) : ℝ) ^ 2 := by
      push_cast
      ring
    rw [← h2]
    exact_mod_cast hsum
  calc Real.sqrt (((v.map F).sum : ℚ) : ℝ) ≤
      Real.sqrt (((v.length : ℕ) : ℝ) * ((B : ℚ) : ℝ) ^ 2) :=
        Real.sqrt_le_sqrt hcast
  _ = Real.sqrt ((v.length : ℕ) : ℝ) * ((B : ℚ) : ℝ) := by
      rw [Real.sqrt_mul (by positivity), Real.sqrt_sq (by exact_mod_cast hBpos)]
  _ = ((B : ℚ) : ℝ) * Real.sqrt ((v.length : ℕ) : ℝ) := by ring

/-! ## Claim C6 — quantised distance: the `int16` square overflows -/

/-- C6 (code bug): on the quantised vectors `[200]` and `[0]` with scale
`[0, 255]`, the claimed value is `sqrt(200²)·1 = sqrt 40000`, but the Go
code squares the difference in `int16`, wrapping `40000` to `−25536`,
converts that to `uint64` and obtains the radicand
`2^64 − 25536 = 18446744073709526080`; the returned distance differs from
the claimed one.  The dimension-mismatch half of the claim does hold. -/
theorem c6_approximate_distance_overflow :
    QuantizedVector.approximateDistance qv200 qv0 =
      Except.ok (18446744073709526080, 1) ∧
    claimedSumSquares qv200 qv0 = 40000 ∧
    Real.sqrt ((18446744073709526080 : ℕ) : ℝ) * ((1 : ℚ) : ℝ) ≠
      Real.sqrt (((40000 : ℤ) : ℤ) : ℝ) * ((1 : ℚ) : ℝ) ∧
    QuantizedVector.approximateDistance qv200 qv2d =
      Except.error (CompErr.dimensionMismatch 1 2) := by
  refine ⟨?_, by decide, ?_, ?_⟩
  · rw [QuantizedVector.approximateDistance, if_neg (by decide)]
    refine congrArg Except.ok (Prod.ext (by decide) ?_)
    show ((qv200.max - qv200.min) / 255 + (qv0.max - qv0.min) / 255) / 2 = 1
    rw [show qv200.max = 255 from rfl, show qv200.min = 0 from rfl,
      show qv0.max = 255 from rfl, show qv0.min = 0 from rfl]
    norm_num
  · simp only [Rat.cast_one, mul_one]
    refine ne_of_gt ?_
    refine Real.sqrt_lt_sqrt (by norm_num) ?_
    norm_num
  · rw [QuantizedVector.approximateDistance, if_pos (by decide)]
    rfl

/-! ## Claim C9 — creation with non-positive dimensions does not fail -/

/-- C9 (counterexample): creating a collection with `D = 0` does not
return an `InvalidArgument` error; both `types.NewTree` and `client.New`
succeed, silently substituting the default dimension count 512. -/
theorem c9_counterexample :
    newTree 0 = ⟨512, [], List.replicate 512 [], false⟩ ∧
    clientNew ("hippocampus.db") 0 =
      Except.ok ⟨("hippocampus.db"), 512, none, false, true⟩ := by
  constructor
  · rfl
  · rfl

/-- C9 (amended): creating a collection with a non-positive declared
dimension count does not fail; the dimension count silently defaults to
512 and an (empty) collection is created. -/
theorem c9_default_dimensions (d : ℤ) (hd : d ≤ 0) (path : String) :
    (newTree d).dimensions = 512 ∧ (newTree d).nodes = [] ∧
    clientNew path d = Except.ok ⟨path, 512, none, false, true⟩ := by
  rw [newTree, clientNew]
  simp [hd]

/-- Witness for `c9_default_dimensions` at `d = −3`. -/
theorem c9_witness :
    (-3 : ℤ) ≤ 0 ∧
    ((newTree (-3)).dimensions = 512 ∧ (newTree (-3)).nodes = [] ∧
      clientNew ("db") (-3) = Except.ok ⟨("db"), 512, none, false, true⟩) :=
  ⟨by decide, c9_default_dimensions (-3) (by decide) ("db")⟩

/-! ## Claim C7 — the compression-flag probe commits the file position -/

theorem readNode_shifted_none (c : Codec) (b : ℕ) (junk : List ℕ) :
    readNode c 3 (0 :: 0 :: 0 :: b :: junk) = none := by
  have hread : readBytes 4 (0 :: 0 :: 0 :: b :: junk) =
      some ([0, 0, 0, b], junk) := by
    rw [show (0 :: 0 :: 0 :: b :: junk) = [0, 0, 0, b] ++ junk from rfl]
    exact readBytes_exact rfl
  have hI32 : readI32 (0 :: 0 :: 0 :: b :: junk) =
      some (toSigned 32 (decLE [0, 0, 0, b]), junk) := by
    rw [readI32, hread]
    rfl
  rw [readNode, hI32]
  have hdec : decLE [0, 0, 0, b] = 16777216 * b := by
    rw [decLE]
    simp [List.foldr]
    ring
  have hne : toSigned 32 (decLE [0, 0, 0, b]) ≠ 3 := by
    rw [hdec, toSigned]
    have hmod : 16777216 * b % 2 ^ 32 = 16777216 * (b % 256) := by
      rw [show (2 : ℕ) ^ 32 = 16777216 * 256 from by norm_num]
      exact Nat.mul_mod_mul_left 16777216 b 256
    simp only [hmod]
    have hb : b % 256 < 256 := Nat.mod_lt b (by norm_num)
    split
    · intro hc
      omega
    · intro hc
      omega
  simp only [Option.bind_eq_bind, Option.some_bind]
  rw [if_pos hne]

theorem readNodes_shifted_none (c : Codec) (b : ℕ) (junk : List ℕ) :
    readNodes c 3 1 (0 :: 0 :: 0 :: b :: junk) = none := by
  rw [readNodes, readNode_shifted_none]
  rfl

/-- C7 (code bug): a file written by the uncompressed writer (no
compression flag; header followed directly by the first node record) loads
correctly through `FileStorage.Load`, but `CompressedStorage.Load` — which
the claim says probes the flag byte without committing the position —
consumes the probe byte whenever one is present and not equal to 1, then
misparses the shifted stream and fails, instead of decoding the same nodes
as the uncompressed reader. -/
theorem c7_compressed_probe_bug {c : Codec} (hc : c.Wf) :
    fileLoad c (fileSave c c7Tree) =
      some (Tree.rebuildIndex
        ⟨3, c7Tree.nodes, List.replicate 3 [], false⟩) ∧
    compressedLoad c (fileSave c c7Tree) = none := by
  constructor
  · have h := fileLoad_fileSave hc c7Tree
      ⟨by decide, by decide, by decide, by
        intro n hn
        rw [c7Tree] at hn
        rcases List.mem_singleton.mp hn with rfl
        exact ⟨by decide, by decide⟩⟩
    exact h
  · obtain ⟨b, bs, hfe⟩ : ∃ b bs, c.fenc 0 = b :: bs := by
      have hlen := hc.fenc_length 0
      cases hcc : c.fenc 0 with
      | nil => rw [hcc] at hlen; simp at hlen
      | cons b bs => exact ⟨b, bs, rfl⟩
    obtain ⟨junk, hflat⟩ : ∃ junk, (c7Tree.nodes.map (writeNode c)).flatten =
        3 :: 0 :: 0 :: 0 :: b :: junk := by
      refine ⟨bs ++ (c.fenc 0 ++ (c.fenc 0 ++ 0 :: 0 :: 0 :: 0 :: 0 :: 0 :: 0 :: 0 ::
        (c.tsenc 0).length % 256 :: (c.tsenc 0).length / 256 % 256 ::
        (c.tsenc 0).length / 256 / 256 % 256 ::
        (c.tsenc 0).length / 256 / 256 / 256 % 256 ::
        (c.tsenc 0 ++ [0, 0, 0, 0]))), ?_⟩
      rw [c7Tree]
      simp only [List.map_cons, List.map_nil, List.flatten_cons,
        List.flatten_nil, List.append_nil]
      rw [writeNode]
      simp only
      simp [encLE, List.append_assoc]
      rw [hfe]
      simp [List.append_assoc]
    rw [fileSave]
    rw [show c7Tree.dimensions = 3 from rfl, show c7Tree.nodes.length = 1 from rfl]
    simp only [List.append_assoc]
    rw [compressedLoad, readI32_enc (by norm_num : (3 : ℕ) < 2 ^ 31)]
    simp only [Option.bind_eq_bind, Option.some_bind]
    rw [readI64_enc (by norm_num : (1 : ℕ) < 2 ^ 63)]
    simp only [Option.some_bind, if_neg (not_lt.mpr (by norm_num : (0 : ℤ) ≤ 1))]
    rw [hflat]
    simp only [if_neg (by norm_num : ¬ (3 : ℕ) = 1)]
    rw [if_neg (by norm_num : ¬ ((1 : ℕ) : ℤ) < 0)]
    rw [show (((1 : ℕ) : ℤ)).toNat = 1 from rfl,
      show ((3 : ℕ) : ℤ) = (3 : ℤ) from rfl]
    rw [readNodes_shifted_none]
    rfl

/-- C8 (counterexample): on a clean, indexed 1-D collection holding one
node with key 1, inserting a second node with the equal key 1 splices the
new position 1 *before* the old position 0 (`sort.Search` returns the
lowest admissible slot), so `index[0] = [1, 0]` — sorted by key, but not
by `(key, position)` as invariant I2 claims. -/
theorem c8_counterexample :
    c8Tree.indexDirty = false ∧
    (c8Tree.index.getD 0 []).Pairwise (fun i j =>
      c8Tree.nodeKey i 0 < c8Tree.nodeKey j 0 ∨
        (c8Tree.nodeKey i 0 = c8Tree.nodeKey j 0 ∧ i < j)) ∧
    (c8Tree.index.getD 0 []).Perm (List.range 1) ∧
    (c8Tree.insertWithMetadata [1] [66] none 7).1 = none ∧
    c8After.index.getD 0 [] = [1, 0] ∧
    ¬ (c8After.index.getD 0 []).Pairwise (fun i j =>
      c8After.nodeKey i 0 < c8After.nodeKey j 0 ∨
        (c8After.nodeKey i 0 = c8After.nodeKey j 0 ∧ i < j)) := by
  decide

/-! ## The concrete codec is well-formed -/

theorem strDec_strEnc (s : String) : strDec (strEnc s) = some s := by
  rw [strEnc, strDec, Encodable.encodek]
  simp only [Option.map]
  refine congrArg some ?_
  rw [List.map_map]
  have : (Char.ofNat ∘ Char.toNat) = id := by
    funext c
    exact Char.ofNat_toNat c
  rw [this, List.map_id]

theorem mvalDec_mvalEnc (v : MVal) : mvalDec (mvalEnc v) = some v := by
  cases v with
  | str s =>
    have h1 : (4 * strEnc s) % 4 = 0 := by omega
    have h2 : (4 * strEnc s) / 4 = strEnc s := by omega
    rw [mvalEnc, mvalDec, h1, h2, strDec_strEnc]
    rfl
  | num q =>
    have h1 : (4 * Encodable.encode q + 1) % 4 = 1 := by omega
    have h2 : (4 * Encodable.encode q + 1) / 4 = Encodable.encode q := by omega
    rw [mvalEnc, mvalDec, h1, h2, Encodable.encodek]
    rfl
  | bool b => cases b <;> decide
  | null => decide

theorem mapM_pair_dec (m : Md) :
    ((m.map fun p => (strEnc p.1, mvalEnc p.2)).mapM fun p =>
      (strDec p.1).bind fun s =>
        (mvalDec p.2).bind fun v => some ((s, v) : String × MVal)) = some m := by
  induction m with
  | nil => rfl
  | cons kv rest ih =>
    rw [List.map_cons, List.mapM_cons]
    simp only [strDec_strEnc kv.1, mvalDec_mvalEnc kv.2, Option.bind_eq_bind,
      Option.some_bind, ih]
    rfl

theorem mdDec_mdEnc (m : Md) : mdDec (mdEnc m) = some m := by
  rw [mdDec, mdEnc, Encodable.encodek]
  simp only [Option.bind_eq_bind, Option.some_bind]
  have := mapM_pair_dec m
  simpa using this

theorem natCodec_wf : natCodec.Wf := by
  refine ⟨fun x => rfl, ?_, ?_, ?_, ?_, ?_, ?_⟩
  · intro x
    show ((Encodable.decode (Encodable.encode x) : Option ℚ)).getD 0 = x
    rw [Encodable.encodek]
    rfl
  · intro t
    exact Encodable.encodek t
  · intro t
    show (1 : ℕ) < 2 ^ 31
    norm_num
  · intro m
    exact mdDec_mdEnc m
  · intro m
    show (1 : ℕ) < 2 ^ 31
    norm_num
  · intro m
    show 0 < (1 : ℕ)
    norm_num

/-- C3 (counterexample to run-wise result-sequence identity): the
round-trip of a clean, indexed 1-D collection with two nodes at the same
key reconstructs the nodes exactly, but a search of the loaded collection
can return `[tieNodeB, tieNodeA]` while the same search of the original
can return `[tieNodeA, tieNodeB]` — the tied distance leaves the order to
the randomised map enumeration and the unstable `sort.Slice`, so sequence
identity across save/load is not a property of the program. -/
theorem c3_counterexample :
    fileLoad natCodec (fileSave natCodec tieTree) = some tieLoaded ∧
    tieLoaded.nodes = tieTree.nodes ∧
    tieLoaded.searchOutcome [0] 0 0 2 none [(0, 1)]
      (Except.ok [tieNodeB, tieNodeA], tieLoaded) ∧
    tieTree.searchOutcome [0] 0 0 2 none [(0, 1)]
      (Except.ok [tieNodeA, tieNodeB], tieTree) ∧
    [tieNodeB, tieNodeA] ≠ [tieNodeA, tieNodeB] := by
  refine ⟨fileLoad_fileSave natCodec_wf tieTree (by decide), by decide,
    ?_, ?_, by decide⟩
  · rw [Tree.searchOutcome]
    refine Or.inr (Or.inr ⟨by decide, by decide, tieLoaded, by decide,
      [(1, 0), (0, 0)], ?_, by decide, rfl⟩)
    rw [tieLoaded_admittedScored [(0, 1)] (by decide)]
    decide
  · rw [Tree.searchOutcome]
    refine Or.inr (Or.inr ⟨by decide, by decide, tieTree, by decide,
      [(0, 0), (1, 0)], ?_, by decide, rfl⟩)
    rw [tie_admittedScored [(0, 1)] (by decide)]

/-! ## Witnesses: the claim theorems applied at concrete inputs -/

/-- Witness for `c1_search_exact_recall` on a concrete 1-D collection. -/
theorem c1_witness :
    (wTree.indexDirty = false ∧ wTree.goodIndex ∧
      blocksCover wTree.dimensions [(0, 1)] = true) ∧
    ∀ r : List Node,
      (∃ t2, wTree.searchOutcome [5] 0 0 1 none [(0, 1)] (Except.ok r, t2)) ↔
        (∃ res : List (ℕ × ℚ), res.Perm (wTree.specScored [5] 0 0 none) ∧
          res.Pairwise (fun a b : ℕ × ℚ => a.2 ≤ b.2) ∧
          r = (res.take 1).map fun p => wTree.nodes.getD p.1 default) :=
  ⟨⟨by decide, by decide, by decide⟩,
    (c1_search_exact_recall wTree [5] 0 0 1 none [(0, 1)] (by decide) (by decide)
      (by decide) (by decide) (by decide) (by decide) (by decide) (by decide)
      (by decide)).1⟩

/-- Witness for `c2_batch_insert` on a concrete valid batch. -/
theorem c2_witness :
    (∀ it ∈ ([⟨[7], [2], none⟩] : List BatchItem),
      it.key.length = wTree.dimensions) ∧
    wTree.batchOutcome [⟨[7], [2], none⟩] 3
      (wTree.batchInsert [⟨[7], [2], none⟩] 3) ∧
    (wTree.batchInsert [⟨[7], [2], none⟩] 3).1 = none :=
  ⟨by decide, (c2_batch_insert wTree [⟨[7], [2], none⟩] 3).1,
    ((c2_batch_insert wTree [⟨[7], [2], none⟩] 3).2.2 (by decide) _
      (c2_batch_insert wTree [⟨[7], [2], none⟩] 3).1).1⟩

/-- Witness for `c3_save_load_roundtrip` with the concrete codec. -/
theorem c3_witness :
    ∃ t', fileLoad natCodec (fileSave natCodec wTree) = some t' ∧
      t'.nodes = wTree.nodes ∧ t'.dimensions = wTree.dimensions ∧
      ∀ q eps tau k f blocks, blocksCover wTree.dimensions blocks = true →
        ∀ r : Except String (List Node),
          (∃ t2, t'.searchOutcome q eps tau k f blocks (r, t2)) ↔
            (∃ t2, wTree.searchOutcome q eps tau k f blocks (r, t2)) :=
  c3_save_load_roundtrip natCodec_wf wTree (by decide) (by decide)

/-- Witness for `c4_parallel_equivalence` on a two-block partition of a
2-D collection. -/
theorem c4_witness :
    blocksCover (newTree 2).dimensions [(0, 1), (1, 2)] = true ∧
    ∀ pos, (newTree 2).mergedHits [1, 2] 1 [(0, 1), (1, 2)] pos =
      (newTree 2).localHits [1, 2] 1 0 (newTree 2).dimensions pos :=
  ⟨by decide, (c4_parallel_equivalence (newTree 2) [1, 2] 1 0 3 none
    [(0, 1), (1, 2)] (by decide)).1⟩

/-- Witness for `c5_quantization_error_bound` at the vector `[0, 1]`. -/
theorem c5_witness :
    (∃ x ∈ ([0, 1] : List ℚ), ∃ y ∈ ([0, 1] : List ℚ), x ≠ y) ∧
    Real.sqrt (((List.zipWith (fun a b => (a - b) ^ 2)
        ((quantizeVector [0, 1]).dequantize) [0, 1]).sum : ℚ) : ℝ) /
      Real.sqrt ((([0, 1] : List ℚ).length : ℕ) : ℝ) ≤
    (((vecMax [0, 1] - vecMin [0, 1]) / 510 : ℚ) : ℝ) :=
  ⟨by decide, c5_quantization_error_bound [0, 1] (by decide)⟩

/-- Witness for `c7_compressed_probe_bug` with the concrete codec. -/
theorem c7_witness :
    fileLoad natCodec (fileSave natCodec c7Tree) =
      some (Tree.rebuildIndex
        ⟨3, c7Tree.nodes, List.replicate 3 [], false⟩) ∧
    compressedLoad natCodec (fileSave natCodec c7Tree) = none :=
  c7_compressed_probe_bug natCodec_wf

/-- Witness for `c8_insert_preserves_key_sorted` (the amended claim) on a
concrete insert with a fresh key. -/
theorem c8_witness :
    (c8Tree.insertWithMetadata [2] [9] none 1).1 = none ∧
    (c8Tree.insertWithMetadata [2] [9] none 1).2.nodes =
      c8Tree.nodes ++ [⟨[2], [9], none, 1⟩] :=
  ⟨(c8_insert_preserves_key_sorted c8Tree [2] [9] none 1 (by decide) (by decide)
      (by decide) (by decide) (by decide)).1,
    (c8_insert_preserves_key_sorted c8Tree [2] [9] none 1 (by decide) (by decide)
      (by decide) (by decide) (by decide)).2.1⟩

end Hippocampus
